import Mathlib

/-!
# Verification of the SHA disbursement dashboard data core

Shallow embedding of the data-cleaning, entity-resolution and
filter/aggregation functions of `src/functions.py` (a pandas-based
pipeline), together with proofs of the specified properties.

Modelling conventions:
* Python strings are `String` / `List Char`; missing values (`None`,
  `NaN`) are `Option.none` or a dedicated `Cell.null` constructor.
* A pandas `DataFrame` is a list of column names plus a list of rows,
  each row a list of cells parallel to the column list.
* Machine floats are modelled as `Rat` (all amounts appearing in the
  claims are exactly representable; no claim depends on rounding).
* `unicodedata.normalize("NFKD", s).encode("ascii", "ignore")` is
  modelled by a per-character decomposition table covering the common
  Latin letters; NFKD is the identity on ASCII code points, and other
  non-ASCII characters are dropped, as the ascii-ignore encoding does
  to characters whose decomposition has no ASCII part.
-/

/- The core `Rat` operations are irreducible by default, which blocks
kernel evaluation of concrete rational arithmetic in `decide` proofs;
restore default transparency locally. -/
attribute [local semireducible] Rat.add Rat.mul Rat.inv

/-! ## Character helpers (ASCII semantics of the Python operations used) -/

/-- Characters matched by `[a-z0-9]` (the alphabet kept by the cleaning regex). -/
def isLowerAlnum (c : Char) : Bool :=
  ('a' ≤ c && c ≤ 'z') || ('0' ≤ c && c ≤ '9')

/-- Characters matched by Python's `\s` on the ASCII range: space, tab,
newline, carriage return, vertical tab, form feed. -/
def isPySpace (c : Char) : Bool :=
  c == ' ' || c == '\t' || c == '\n' || c == '\r' ||
    c == Char.ofNat 11 || c == Char.ofNat 12

/-- ASCII decimal digit, as matched by `\d` on ASCII input. -/
def isAsciiDigit (c : Char) : Bool := '0' ≤ c && c ≤ '9'

/-- ASCII lower-casing, the effect of Python's `str.lower` on ASCII text. -/
def pyLowerChar (c : Char) : Char :=
  if 'A' ≤ c && c ≤ 'Z' then Char.ofNat (c.toNat + 32) else c

/-- ASCII upper-casing, used by Python's `str.title`. -/
def pyUpperChar (c : Char) : Char :=
  if 'a' ≤ c && c ≤ 'z' then Char.ofNat (c.toNat - 32) else c

/-- ASCII letter test, the word constituent used by `str.title`. -/
def isAsciiAlpha (c : Char) : Bool :=
  ('a' ≤ c && c ≤ 'z') || ('A' ≤ c && c ≤ 'Z')

/-- NFKD decomposition of one character followed by ascii-ignore
encoding.  Identity on ASCII; common precomposed Latin letters
decompose to their base letter (the combining accent is dropped by the
ascii-ignore step); every other character is dropped. -/
def nfkdAsciiChar (c : Char) : List Char :=
  if c.toNat < 128 then [c]
  else if c ∈ ['à', 'á', 'â', 'ã', 'ä', 'å'] then ['a']
  else if c ∈ ['À', 'Á', 'Â', 'Ã', 'Ä', 'Å'] then ['A']
  else if c ∈ ['è', 'é', 'ê', 'ë'] then ['e']
  else if c ∈ ['È', 'É', 'Ê', 'Ë'] then ['E']
  else if c ∈ ['ì', 'í', 'î', 'ï'] then ['i']
  else if c ∈ ['Ì', 'Í', 'Î', 'Ï'] then ['I']
  else if c ∈ ['ò', 'ó', 'ô', 'õ', 'ö'] then ['o']
  else if c ∈ ['Ò', 'Ó', 'Ô', 'Õ', 'Ö'] then ['O']
  else if c ∈ ['ù', 'ú', 'û', 'ü'] then ['u']
  else if c ∈ ['Ù', 'Ú', 'Û', 'Ü'] then ['U']
  else if c == 'ç' then ['c']
  else if c == 'Ç' then ['C']
  else if c == 'ñ' then ['n']
  else if c == 'Ñ' then ['N']
  else if c == 'ý' || c == 'ÿ' then ['y']
  else []

/-- `unicodedata.normalize("NFKD", s).encode("ascii", "ignore").decode("ascii")`
on the character list of `s`. -/
def nfkdAsciiFold (l : List Char) : List Char :=
  (l.flatMap nfkdAsciiChar).filter (fun c => c.toNat < 128)

/-- Worker for `subRuns`; the flag records whether the scan is inside a
run of characters satisfying `p` whose replacement space has already
been emitted. -/
def subRunsAux (p : Char → Bool) : Bool → List Char → List Char
  | _, [] => []
  | inRun, c :: rest =>
    if p c then
      if inRun then subRunsAux p true rest
      else ' ' :: subRunsAux p true rest
    else c :: subRunsAux p false rest

/-- `re.sub(p+, " ", s)`: replace every maximal run of characters
satisfying `p` by a single space. -/
def subRuns (p : Char → Bool) (l : List Char) : List Char :=
  subRunsAux p false l

/-- The stopword alternation of `_clean_name`:
`hospital|dispensary|clinic|medical|centre|center|health|facility`. -/
def STOPWORDS : List (List Char) :=
  [ "hospital".data, "dispensary".data, "clinic".data, "medical".data,
    "centre".data, "center".data, "health".data, "facility".data ]

/-- One alternation step of the stopword substitution: a token equal to a
stopword is replaced by a single space, any other token is kept. -/
def subStopTok (t : List Char) : List Char :=
  if t ∈ STOPWORDS then [' '] else t

/-- Join token lists with single spaces (inverse of splitting on a space). -/
def joinSp (ts : List (List Char)) : List Char :=
  List.intercalate [' '] ts

/-- `re.sub(r"\b(hospital|dispensary|clinic|medical|centre|center|health|facility)\b", " ", s)`
on the domain where it is applied in `_clean_name`: after the previous
substitution every character of `s` is in `[a-z0-9 ]`, so `\b`-delimited
matches are exactly the space-delimited tokens equal to a stopword, and
each such token is replaced by one space.  Encoded by splitting on the
space character, substituting tokens, and re-joining with spaces. -/
def subStopwords (l : List Char) : List Char :=
  joinSp ((l.splitOn ' ').map subStopTok)

/-- Python `str.strip()`: remove leading and trailing whitespace. -/
def pyStrip (l : List Char) : List Char :=
  ((l.dropWhile isPySpace).reverse.dropWhile isPySpace).reverse

/-- Shallow embedding of `_clean_name` from `src/functions.py`:
`None ↦ ""`; otherwise NFKD-fold to ASCII, lower-case, replace
`[^a-z0-9]+` runs by a space, remove the stopwords, collapse `\s+`
runs to one space, and strip. -/
def _clean_name : Option String → String
  | none => ""
  | some s =>
      String.mk (pyStrip (subRuns isPySpace (subStopwords
        (subRuns (fun c => !isLowerAlnum c)
          (List.map pyLowerChar (nfkdAsciiFold s.data))))))

/-! ## Token-run analysis used to prove idempotence of `_clean_name`

`wordRuns p l` lists the maximal runs of characters *not* satisfying
`p` in `l`, in order.  The cleaning pipeline is shown to rewrite any
input into `joinSp` of its surviving word runs, a form all pipeline
stages leave unchanged. -/

/-- The maximal runs of characters not satisfying `p`, in order. -/
def wordRuns (p : Char → Bool) : List Char → List (List Char)
  | [] => []
  | c :: rest =>
    if p c then wordRuns p rest
    else (c :: rest.takeWhile (fun d => !p d)) :: wordRuns p (rest.dropWhile (fun d => !p d))
termination_by l => l.length
decreasing_by
  · exact Nat.lt_succ_of_le (Nat.le_refl _)
  · exact Nat.lt_succ_of_le ((List.dropWhile_sublist _).length_le)

/-- Strip trailing characters satisfying `p`. -/
def rstripBy (p : Char → Bool) (l : List Char) : List Char :=
  (l.reverse.dropWhile p).reverse

lemma joinSp_nil : joinSp [] = [] := rfl

lemma joinSp_single (w : List Char) : joinSp [w] = w := by
  simp [joinSp, List.intercalate]

lemma joinSp_cons (w : List Char) (ws : List (List Char)) (h : ws ≠ []) :
    joinSp (w :: ws) = w ++ ' ' :: joinSp ws := by
  cases ws with
  | nil => exact absurd rfl h
  | cons w2 ws2 =>
    simp [joinSp, List.intercalate, List.intersperse]

lemma subRunsAux_nil (p : Char → Bool) (b : Bool) : subRunsAux p b [] = [] := rfl

lemma subRunsAux_cons_pos (p : Char → Bool) (b : Bool) (c : Char) (l : List Char)
    (h : p c = true) :
    subRunsAux p b (c :: l) =
      (if b then subRunsAux p true l else ' ' :: subRunsAux p true l) := by
  simp [subRunsAux, h]

lemma subRunsAux_cons_neg (p : Char → Bool) (b : Bool) (c : Char) (l : List Char)
    (h : ¬ p c = true) :
    subRunsAux p b (c :: l) = c :: subRunsAux p false l := by
  simp [subRunsAux, h]

/-- A nonempty prefix of non-`p` characters passes through `subRunsAux`
unchanged and resets the in-run flag. -/
lemma subRunsAux_word_append (p : Char → Bool) (b : Bool) (w r : List Char)
    (hw : w ≠ []) (hall : ∀ c ∈ w, ¬ p c = true) :
    subRunsAux p b (w ++ r) = w ++ subRunsAux p false r := by
  induction w generalizing b with
  | nil => exact absurd rfl hw
  | cons c w' ih =>
    rw [List.cons_append, subRunsAux_cons_neg p b c (w' ++ r) (hall c (by simp))]
    cases w' with
    | nil => simp
    | cons d w'' =>
      rw [ih false (by simp) (fun x hx => hall x (List.mem_cons_of_mem _ hx))]
      simp

/-- With the flag set, leading `p`-characters are consumed silently. -/
lemma subRunsAux_true_dropWhile (p : Char → Bool) (r : List Char) :
    subRunsAux p true r = subRunsAux p false (r.dropWhile p) := by
  induction r with
  | nil => rfl
  | cons c r' ih =>
    by_cases h : p c = true
    · rw [subRunsAux_cons_pos p true c r' h, if_pos rfl, List.dropWhile_cons_of_pos h, ih]
    · rw [subRunsAux_cons_neg p true c r' h, List.dropWhile_cons_of_neg h,
        subRunsAux_cons_neg p false c r' h]

lemma head_dropWhile_not (p : Char → Bool) (l : List Char) :
    ∀ c ∈ (l.dropWhile p).head?, ¬ p c = true := by
  induction l with
  | nil => intro c hc; simp at hc
  | cons d l' ih =>
    by_cases h : p d = true
    · rw [List.dropWhile_cons_of_pos h]; exact ih
    · rw [List.dropWhile_cons_of_neg h]; intro c hc; simp at hc; rwa [hc] at h

/-- When the input starts with a non-`p` character (or is empty), the
output of `subRunsAux p false` starts with the same character, so a
left strip is the identity on it. -/
lemma dropWhile_subRunsAux_head_neg (p : Char → Bool) (m : List Char)
    (hm : ∀ c ∈ m.head?, ¬ p c = true) :
    (subRunsAux p false m).dropWhile p = subRunsAux p false m := by
  cases m with
  | nil => rfl
  | cons c r =>
    have hc : ¬ p c = true := hm c rfl
    rw [subRunsAux_cons_neg p false c r hc, List.dropWhile_cons_of_neg hc]

/-- Left-stripping commutes with the run substitution (for predicates
that hold of the replacement space, as both in `_clean_name` do). -/
lemma dropWhile_subRuns (p : Char → Bool) (hsp : p ' ' = true) (l : List Char) :
    (subRunsAux p false l).dropWhile p = subRunsAux p false (l.dropWhile p) := by
  cases l with
  | nil => rfl
  | cons c r =>
    by_cases h : p c = true
    · rw [subRunsAux_cons_pos p false c r h, if_neg (by simp), subRunsAux_true_dropWhile,
        List.dropWhile_cons_of_pos h, List.dropWhile_cons_of_pos hsp,
        dropWhile_subRunsAux_head_neg p _ (head_dropWhile_not p r)]
    · rw [subRunsAux_cons_neg p false c r h, List.dropWhile_cons_of_neg h,
        List.dropWhile_cons_of_neg h, subRunsAux_cons_neg p false c r h]

lemma rstripBy_nil (p : Char → Bool) : rstripBy p [] = [] := rfl

lemma rstripBy_eq_nil_iff (p : Char → Bool) (m : List Char) :
    rstripBy p m = [] ↔ ∀ c ∈ m, p c = true := by
  rw [rstripBy, List.reverse_eq_nil_iff, List.dropWhile_eq_nil_iff]
  constructor
  · intro h c hc; exact h c (List.mem_reverse.mpr hc)
  · intro h c hc; exact h c (List.mem_reverse.mp hc)

/-- An all-non-`p` prefix passes through a right strip. -/
lemma rstripBy_word_append (p : Char → Bool) (w X : List Char)
    (hall : ∀ c ∈ w, ¬ p c = true) :
    rstripBy p (w ++ X) = w ++ rstripBy p X := by
  rw [rstripBy, List.reverse_append, List.dropWhile_append]
  by_cases h : (X.reverse.dropWhile p).isEmpty
  · rw [if_pos h]
    have hX : rstripBy p X = [] := by
      rw [rstripBy, List.isEmpty_iff] at *; simp [h]
    have hwrev : w.reverse.dropWhile p = w.reverse := by
      cases hrev : w.reverse with
      | nil => simp
      | cons c t =>
        have hc : c ∈ w := by
          rw [← List.mem_reverse, hrev]; simp
        rw [List.dropWhile_cons_of_neg (hall c hc)]
    rw [hwrev, List.reverse_reverse, hX, List.append_nil]
  · rw [if_neg h, List.reverse_append, List.reverse_reverse, rstripBy]

lemma rstripBy_cons_of_ne (p : Char → Bool) (c : Char) (X : List Char)
    (hX : rstripBy p X ≠ []) :
    rstripBy p (c :: X) = c :: rstripBy p X := by
  have : c :: X = [c] ++ X := rfl
  rw [this, rstripBy, List.reverse_append, List.dropWhile_append]
  have h : ¬ (X.reverse.dropWhile p).isEmpty := by
    intro hcon
    rw [List.isEmpty_iff] at hcon
    exact hX (by rw [rstripBy, hcon]; rfl)
  rw [if_neg h, List.reverse_append, rstripBy]
  simp

lemma rstripBy_cons_pos_of_nil (p : Char → Bool) (c : Char) (X : List Char)
    (hc : p c = true) (hX : rstripBy p X = []) :
    rstripBy p (c :: X) = [] := by
  have : c :: X = [c] ++ X := rfl
  rw [this, rstripBy, List.reverse_append, List.dropWhile_append]
  have h : (X.reverse.dropWhile p).isEmpty := by
    rw [rstripBy, List.reverse_eq_nil_iff] at hX
    rw [hX]; rfl
  rw [if_pos h]
  simp [hc]

lemma wordRuns_nil (p : Char → Bool) : wordRuns p [] = [] := by
  rw [wordRuns]

lemma wordRuns_cons_pos (p : Char → Bool) (c : Char) (r : List Char) (h : p c = true) :
    wordRuns p (c :: r) = wordRuns p r := by
  rw [wordRuns, if_pos h]

lemma wordRuns_cons_neg (p : Char → Bool) (c : Char) (r : List Char) (h : ¬ p c = true) :
    wordRuns p (c :: r) =
      (c :: r.takeWhile (fun d => !p d)) :: wordRuns p (r.dropWhile (fun d => !p d)) := by
  rw [wordRuns, if_neg h]

lemma wordRuns_dropWhile (p : Char → Bool) (l : List Char) :
    wordRuns p (l.dropWhile p) = wordRuns p l := by
  induction l with
  | nil => rfl
  | cons c r ih =>
    by_cases h : p c = true
    · rw [List.dropWhile_cons_of_pos h, ih, wordRuns_cons_pos p c r h]
    · rw [List.dropWhile_cons_of_neg h]

/-- Every entry of `wordRuns` is a nonempty list of non-`p` characters. -/
lemma wordRuns_entries (p : Char → Bool) :
    ∀ n (l : List Char), l.length ≤ n →
      ∀ e ∈ wordRuns p l, e ≠ [] ∧ ∀ c ∈ e, ¬ p c = true := by
  intro n
  induction n with
  | zero =>
    intro l hl
    rw [List.length_eq_zero.mp (Nat.le_zero.mp hl), wordRuns_nil]
    intro e he; exact absurd he (List.not_mem_nil e)
  | succ n ih =>
    intro l hl e he
    cases l with
    | nil => rw [wordRuns_nil] at he; exact absurd he (List.not_mem_nil e)
    | cons c r =>
      by_cases h : p c = true
      · rw [wordRuns_cons_pos p c r h] at he
        exact ih r (by simpa using Nat.le_of_succ_le_succ hl) e he
      · rw [wordRuns_cons_neg p c r h] at he
        rcases List.mem_cons.mp he with he | he
        · subst he
          refine ⟨by simp, ?_⟩
          intro x hx
          rcases List.mem_cons.mp hx with hx | hx
          · rwa [hx]
          · have := List.mem_takeWhile_imp hx
            simpa using this
        · refine ih (r.dropWhile (fun d => !p d)) ?_ e he
          have : (r.dropWhile (fun d => !p d)).length ≤ r.length :=
            (List.dropWhile_sublist _).length_le
          have hr : r.length ≤ n := by simpa using Nat.le_of_succ_le_succ hl
          omega

/-- A word (nonempty, all non-`p`) followed by a separator-headed (or
empty) tail is the first run. -/
lemma wordRuns_word_append (p : Char → Bool) (c : Char) (e X : List Char)
    (hc : ¬ p c = true) (he : ∀ d ∈ e, ¬ p d = true)
    (hX : ∀ d ∈ X.head?, p d = true) :
    wordRuns p (c :: e ++ X) = (c :: e) :: wordRuns p X := by
  rw [List.cons_append, wordRuns_cons_neg p c (e ++ X) hc]
  have htk : (e ++ X).takeWhile (fun d => !p d) = e ++ X.takeWhile (fun d => !p d) :=
    List.takeWhile_append_of_pos (by intro a ha; simp [he a ha])
  have htX : X.takeWhile (fun d => !p d) = [] := by
    cases X with
    | nil => rfl
    | cons x xs =>
      rw [List.takeWhile_cons_of_neg]
      simp [hX x rfl]
  have hdr : (e ++ X).dropWhile (fun d => !p d) = X := by
    rw [List.dropWhile_append_of_pos (by intro a ha; simp [he a ha])]
    cases X with
    | nil => rfl
    | cons x xs =>
      rw [List.dropWhile_cons_of_neg]
      simp [hX x rfl]
  rw [htk, htX, List.append_nil, hdr]

/-- A prefix of separator characters does not contribute any run. -/
lemma wordRuns_sep_append (p : Char → Bool) (e X : List Char)
    (he : ∀ d ∈ e, p d = true) :
    wordRuns p (e ++ X) = wordRuns p X := by
  induction e with
  | nil => rfl
  | cons c e' ih =>
    rw [List.cons_append, wordRuns_cons_pos p c (e' ++ X) (he c (by simp))]
    exact ih (fun d hd => he d (List.mem_cons_of_mem _ hd))

lemma joinSp_ne_nil (w : List Char) (ws : List (List Char)) (hw : w ≠ []) :
    joinSp (w :: ws) ≠ [] := by
  cases ws with
  | nil => rw [joinSp_single]; exact hw
  | cons f ws2 =>
    rw [joinSp_cons w (f :: ws2) (by simp)]
    intro hcon
    rcases List.append_eq_nil.mp hcon with ⟨h1, _⟩
    exact hw h1

/-- Core normal-form lemma: on a word-headed (or empty) input, replacing
separator runs by single spaces and right-stripping yields exactly the
word runs joined by single spaces. -/
lemma rstripBy_subRuns_eq (p : Char → Bool) (hsp : p ' ' = true) :
    ∀ n (l : List Char), l.length ≤ n → (∀ c ∈ l.head?, ¬ p c = true) →
      rstripBy p (subRunsAux p false l) = joinSp (wordRuns p l) := by
  intro n
  induction n with
  | zero =>
    intro l hl _
    rw [List.length_eq_zero.mp (Nat.le_zero.mp hl), subRunsAux_nil, rstripBy_nil,
      wordRuns_nil, joinSp_nil]
  | succ n ih =>
    intro l hl hhead
    cases l with
    | nil => rw [subRunsAux_nil, rstripBy_nil, wordRuns_nil, joinSp_nil]
    | cons c r =>
      have hc : ¬ p c = true := hhead c rfl
      have hsplit : c :: r = (c :: r.takeWhile (fun d => !p d)) ++ r.dropWhile (fun d => !p d) := by
        rw [List.cons_append, List.takeWhile_append_dropWhile]
      have he_all : ∀ d ∈ c :: r.takeWhile (fun d => !p d), ¬ p d = true := by
        intro d hd
        rcases List.mem_cons.mp hd with hd | hd
        · rwa [hd]
        · have := List.mem_takeWhile_imp hd; simpa using this
      have hrest_head : ∀ d ∈ (r.dropWhile (fun x => !p x)).head?, p d = true := by
        intro d hd
        have := head_dropWhile_not (fun x => !p x) r d hd
        simpa using this
      rw [hsplit, subRunsAux_word_append p false _ _ (by simp) he_all,
        rstripBy_word_append p _ _ he_all,
        wordRuns_word_append p c _ _ hc
          (fun d hd => he_all d (List.mem_cons_of_mem _ hd)) hrest_head]
      cases hrestc : r.dropWhile (fun d => !p d) with
      | nil =>
        rw [subRunsAux_nil, rstripBy_nil, wordRuns_nil, joinSp_single, List.append_nil]
      | cons d r2 =>
        have hd : p d = true := by
          have := hrest_head d (by rw [hrestc]; rfl)
          exact this
        have hlen : (r2.dropWhile p).length ≤ n := by
          have h1 : (r2.dropWhile p).length ≤ r2.length := (List.dropWhile_sublist _).length_le
          have h2 : (r.dropWhile (fun d => !p d)).length ≤ r.length :=
            (List.dropWhile_sublist _).length_le
          rw [hrestc] at h2
          simp only [List.length_cons] at h2 hl
          omega
        have ihm := ih (r2.dropWhile p) hlen (head_dropWhile_not p r2)
        rw [subRunsAux_cons_pos p false d r2 hd, if_neg (by simp),
          subRunsAux_true_dropWhile p r2, wordRuns_cons_pos p d r2 hd,
          ← wordRuns_dropWhile p r2]
        cases hwr : wordRuns p (r2.dropWhile p) with
        | nil =>
          rw [hwr] at ihm
          rw [joinSp_nil] at ihm
          rw [rstripBy_cons_pos_of_nil p ' ' _ hsp ihm, joinSp_single, List.append_nil]
        | cons w2 ws2 =>
          have hw2 : w2 ≠ [] :=
            (wordRuns_entries p (r2.dropWhile p).length (r2.dropWhile p) le_rfl w2
              (by rw [hwr]; simp)).1
          have hne : rstripBy p (subRunsAux p false (r2.dropWhile p)) ≠ [] := by
            rw [ihm, hwr]
            exact joinSp_ne_nil w2 ws2 hw2
          rw [rstripBy_cons_of_ne p ' ' _ hne, ihm, hwr,
            joinSp_cons _ ((w2 :: ws2)) (by simp)]

/-- The full strip-of-substitution normal form, for any input. -/
lemma strip_subRuns_eq (p : Char → Bool) (hsp : p ' ' = true) (l : List Char) :
    rstripBy p ((subRunsAux p false l).dropWhile p) = joinSp (wordRuns p l) := by
  rw [dropWhile_subRuns p hsp l,
    rstripBy_subRuns_eq p hsp (l.dropWhile p).length (l.dropWhile p) le_rfl
      (head_dropWhile_not p l),
    wordRuns_dropWhile]

/-- `wordRuns` recovers exactly the word entries of a space-joined list
whose entries are words or separator runs. -/
lemma wordRuns_joinSp (p : Char → Bool) (hsp : p ' ' = true) :
    ∀ es : List (List Char),
      (∀ e ∈ es, (∀ c ∈ e, ¬ p c = true) ∨ (∀ c ∈ e, p c = true)) →
      wordRuns p (joinSp es) = es.filter (fun e => !e.isEmpty && e.all (fun c => !p c)) := by
  intro es
  induction es with
  | nil => intro _; rw [joinSp_nil, wordRuns_nil, List.filter_nil]
  | cons e es' ih =>
    intro hok
    have hoke := hok e (by simp)
    have hok' : ∀ x ∈ es', (∀ c ∈ x, ¬ p c = true) ∨ (∀ c ∈ x, p c = true) :=
      fun x hx => hok x (List.mem_cons_of_mem _ hx)
    have hkeepOf : ∀ (c : Char) (e0 : List Char), (∀ d ∈ c :: e0, ¬ p d = true) →
        (!(c :: e0).isEmpty && (c :: e0).all (fun x => !p x)) = true := by
      intro c e0 hword
      simp only [List.isEmpty_cons, Bool.not_false, Bool.true_and, List.all_eq_true]
      intro x hx
      simpa using hword x hx
    have hdropOf : ∀ (e1 : List Char), (∀ d ∈ e1, p d = true) →
        (!e1.isEmpty && e1.all (fun x => !p x)) = false := by
      intro e1 hsep
      cases e1 with
      | nil => rfl
      | cons c e0 =>
        have hc : p c = true := hsep c (by simp)
        simp [List.all_cons, hc]
    cases es' with
    | nil =>
      rw [joinSp_single]
      rcases hoke with hword | hsep
      · cases e with
        | nil => rw [wordRuns_nil]; rfl
        | cons c e0 =>
          have happ : (c :: e0) ++ ([] : List Char) = c :: e0 := List.append_nil _
          conv_lhs => rw [← happ]
          rw [wordRuns_word_append p c e0 [] (hword c (by simp))
            (fun d hd => hword d (List.mem_cons_of_mem _ hd)) (by intro d hd; simp at hd),
            wordRuns_nil]
          conv_rhs => rw [List.filter_cons]
          rw [if_pos (hkeepOf c e0 hword), List.filter_nil]
      · conv_lhs => rw [← List.append_nil e]
        rw [wordRuns_sep_append p e [] hsep, wordRuns_nil]
        conv_rhs => rw [List.filter_cons]
        rw [if_neg (by rw [hdropOf e hsep]; simp), List.filter_nil]
    | cons f es2 =>
      rw [joinSp_cons e (f :: es2) (by simp)]
      rcases hoke with hword | hsep
      · cases e with
        | nil =>
          rw [List.nil_append, wordRuns_cons_pos p ' ' _ hsp, ih hok']
          conv_rhs => rw [List.filter_cons]
          rw [if_neg (by simp)]
        | cons c e0 =>
          rw [wordRuns_word_append p c e0 (' ' :: joinSp (f :: es2)) (hword c (by simp))
            (fun d hd => hword d (List.mem_cons_of_mem _ hd))
            (by intro d hd; simp at hd; exact hd ▸ hsp),
            wordRuns_cons_pos p ' ' _ hsp, ih hok']
          conv_rhs => rw [List.filter_cons]
          rw [if_pos (hkeepOf c e0 hword)]
      · rw [wordRuns_sep_append p e _ hsep, wordRuns_cons_pos p ' ' _ hsp, ih hok']
        conv_rhs => rw [List.filter_cons]
        rw [if_neg (by rw [hdropOf e hsep]; simp)]

lemma subRunsAux_chars (p : Char → Bool) :
    ∀ (l : List Char) (b : Bool) (c : Char), c ∈ subRunsAux p b l →
      c = ' ' ∨ (c ∈ l ∧ ¬ p c = true) := by
  intro l
  induction l with
  | nil => intro b c hc; rw [subRunsAux_nil] at hc; exact absurd hc (List.not_mem_nil c)
  | cons d r ih =>
    intro b c hc
    by_cases hd : p d = true
    · rw [subRunsAux_cons_pos p b d r hd] at hc
      cases b with
      | true =>
        rw [if_pos rfl] at hc
        rcases ih true c hc with h | ⟨h1, h2⟩
        · exact Or.inl h
        · exact Or.inr ⟨List.mem_cons_of_mem _ h1, h2⟩
      | false =>
        rw [if_neg (by simp)] at hc
        rcases List.mem_cons.mp hc with h | h
        · exact Or.inl h
        · rcases ih true c h with h | ⟨h1, h2⟩
          · exact Or.inl h
          · exact Or.inr ⟨List.mem_cons_of_mem _ h1, h2⟩
    · rw [subRunsAux_cons_neg p b d r hd] at hc
      rcases List.mem_cons.mp hc with h | h
      · subst h; exact Or.inr ⟨by simp, hd⟩
      · rcases ih false c h with h | ⟨h1, h2⟩
        · exact Or.inl h
        · exact Or.inr ⟨List.mem_cons_of_mem _ h1, h2⟩

lemma joinSp_chars :
    ∀ (es : List (List Char)) (c : Char), c ∈ joinSp es →
      c = ' ' ∨ ∃ e ∈ es, c ∈ e := by
  intro es
  induction es with
  | nil => intro c hc; rw [joinSp_nil] at hc; exact absurd hc (List.not_mem_nil c)
  | cons e es' ih =>
    intro c hc
    cases es' with
    | nil =>
      rw [joinSp_single] at hc
      exact Or.inr ⟨e, by simp, hc⟩
    | cons f es2 =>
      rw [joinSp_cons e _ (by simp)] at hc
      rcases List.mem_append.mp hc with h | h
      · exact Or.inr ⟨e, by simp, h⟩
      · rcases List.mem_cons.mp h with h | h
        · exact Or.inl h
        · rcases ih c h with h | ⟨e2, he2, hce⟩
          · exact Or.inl h
          · exact Or.inr ⟨e2, List.mem_cons_of_mem _ he2, hce⟩

/-- Every entry of `splitOn ' '` consists of non-space characters of the
original list. -/
lemma splitOn_entry_chars :
    ∀ (m : List Char) (e : List Char), e ∈ m.splitOn ' ' → ∀ c ∈ e, c ∈ m ∧ c ≠ ' ' := by
  intro m
  induction m with
  | nil =>
    intro e he c hc
    rw [List.splitOn_nil] at he
    simp at he
    subst he
    exact absurd hc (List.not_mem_nil c)
  | cons d r ih =>
    intro e he c hc
    simp only [List.splitOn, List.splitOnP_cons] at he
    by_cases hd : (d == ' ') = true
    · rw [if_pos hd] at he
      rcases List.mem_cons.mp he with h | h
      · subst h; exact absurd hc (List.not_mem_nil c)
      · have := ih e (by simpa [List.splitOn] using h) c hc
        exact ⟨List.mem_cons_of_mem _ this.1, this.2⟩
    · rw [if_neg hd] at he
      cases hsp : r.splitOnP (· == ' ') with
      | nil => exact absurd hsp (List.splitOnP_ne_nil _ r)
      | cons e1 es =>
        rw [hsp] at he
        simp only [List.modifyHead] at he
        rcases List.mem_cons.mp he with h | h
        · subst h
          rcases List.mem_cons.mp hc with h | h
          · subst h
            refine ⟨by simp, ?_⟩
            intro hcon
            exact hd (beq_iff_eq.mpr hcon)
          · have := ih e1 (by simp [List.splitOn, hsp]) c h
            exact ⟨List.mem_cons_of_mem _ this.1, this.2⟩
        · have := ih e (by simp [List.splitOn, hsp, h]) c hc
          exact ⟨List.mem_cons_of_mem _ this.1, this.2⟩

lemma nfkdAsciiFold_ascii_id :
    ∀ (l : List Char), (∀ c ∈ l, c.toNat < 128) → nfkdAsciiFold l = l := by
  intro l
  induction l with
  | nil => intro _; rfl
  | cons c r ih =>
    intro h
    have hc : c.toNat < 128 := h c (by simp)
    have hr := ih (fun x hx => h x (List.mem_cons_of_mem _ hx))
    rw [nfkdAsciiFold] at hr ⊢
    rw [List.flatMap_cons, List.filter_append, hr]
    rw [nfkdAsciiChar, if_pos hc]
    rw [List.filter_cons_of_pos (by simpa using hc), List.filter_nil]
    rfl

lemma map_pyLowerChar_id :
    ∀ (l : List Char), (∀ c ∈ l, ('A' ≤ c && c ≤ 'Z') = false) →
      l.map pyLowerChar = l := by
  intro l
  induction l with
  | nil => intro _; rfl
  | cons c r ih =>
    intro h
    have hc := h c (by simp)
    rw [List.map_cons, ih (fun x hx => h x (List.mem_cons_of_mem _ hx)),
      pyLowerChar, if_neg (by simp [hc])]

lemma isLowerAlnum_bounds (c : Char) (h : isLowerAlnum c = true) :
    (97 ≤ c.toNat ∧ c.toNat ≤ 122) ∨ (48 ≤ c.toNat ∧ c.toNat ≤ 57) := by
  rw [isLowerAlnum, Bool.or_eq_true, Bool.and_eq_true, Bool.and_eq_true] at h
  rcases h with ⟨h1, h2⟩ | ⟨h1, h2⟩
  · rw [decide_eq_true_eq] at h1 h2
    simp [Char.le_def, UInt32.le_def, BitVec.le_def] at h1 h2
    exact Or.inl ⟨h1, h2⟩
  · rw [decide_eq_true_eq] at h1 h2
    simp [Char.le_def, UInt32.le_def, BitVec.le_def] at h1 h2
    exact Or.inr ⟨h1, h2⟩

lemma isLowerAlnum_ascii (c : Char) (h : isLowerAlnum c = true) : c.toNat < 128 := by
  rcases isLowerAlnum_bounds c h with ⟨_, h2⟩ | ⟨_, h2⟩ <;> omega

lemma isLowerAlnum_not_upper (c : Char) (h : isLowerAlnum c = true) :
    ('A' ≤ c && c ≤ 'Z') = false := by
  cases hAZ : ('A' ≤ c && c ≤ 'Z') with
  | false => rfl
  | true =>
    exfalso
    rw [Bool.and_eq_true, decide_eq_true_eq, decide_eq_true_eq] at hAZ
    obtain ⟨h1, h2⟩ := hAZ
    simp [Char.le_def, UInt32.le_def, BitVec.le_def] at h1 h2
    have hcv : c.toNat = c.val.toBitVec.toNat := rfl
    rcases isLowerAlnum_bounds c h with ⟨g1, g2⟩ | ⟨g1, g2⟩ <;> omega

lemma isLowerAlnum_not_pyspace (c : Char) (h : isLowerAlnum c = true) :
    isPySpace c = false := by
  cases hs : isPySpace c with
  | false => rfl
  | true =>
    exfalso
    rw [isPySpace] at hs
    simp only [Bool.or_eq_true, beq_iff_eq] at hs
    rcases hs with ((((h1 | h1) | h1) | h1) | h1) | h1 <;>
      (subst h1; exact absurd h (by decide))

lemma isLowerAlnum_ne_space (c : Char) (h : isLowerAlnum c = true) : c ≠ ' ' := by
  intro hc; subst hc; exact absurd h (by decide)

lemma subRunsAux_flag_head (p : Char → Bool) (m : List Char)
    (hm : ∀ c ∈ m.head?, ¬ p c = true) :
    subRunsAux p true m = subRunsAux p false m := by
  cases m with
  | nil => rfl
  | cons c r =>
    rw [subRunsAux_cons_neg p true c r (hm c rfl), subRunsAux_cons_neg p false c r (hm c rfl)]

lemma joinSp_head (c : Char) (f0 : List Char) (ws2 : List (List Char)) :
    (joinSp ((c :: f0) :: ws2)).head? = some c := by
  cases ws2 with
  | nil => rw [joinSp_single]; rfl
  | cons g ws3 => rw [joinSp_cons _ _ (by simp)]; rfl

/-- Space-joined nonempty words are a fixed point of the run substitution. -/
lemma subRuns_joinSp_words (p : Char → Bool) (hsp : p ' ' = true) :
    ∀ ws : List (List Char), (∀ w ∈ ws, w ≠ [] ∧ ∀ c ∈ w, ¬ p c = true) →
      subRunsAux p false (joinSp ws) = joinSp ws := by
  intro ws
  induction ws with
  | nil => intro _; rfl
  | cons w ws' ih =>
    intro hws
    have hw := hws w (by simp)
    cases ws' with
    | nil =>
      rw [joinSp_single]
      conv_lhs => rw [← List.append_nil w]
      rw [subRunsAux_word_append p false w [] hw.1 hw.2, subRunsAux_nil, List.append_nil]
    | cons f ws2 =>
      rw [joinSp_cons w (f :: ws2) (by simp)]
      rw [subRunsAux_word_append p false w _ hw.1 hw.2,
        subRunsAux_cons_pos p false ' ' _ hsp, if_neg (by simp)]
      have hf := hws f (by simp)
      obtain ⟨c, f0, hcf⟩ : ∃ c f0, f = c :: f0 := by
        cases f with
        | nil => exact absurd rfl hf.1
        | cons c f0 => exact ⟨c, f0, rfl⟩
      have hhead : ∀ d ∈ (joinSp (f :: ws2)).head?, ¬ p d = true := by
        intro d hd
        rw [hcf, joinSp_head] at hd
        simp at hd
        subst hd
        exact hf.2 c (by rw [hcf]; simp)
      rw [subRunsAux_flag_head p _ hhead,
        ih (fun x hx => hws x (List.mem_cons_of_mem _ hx))]

lemma pyStrip_eq_rstrip (l : List Char) :
    pyStrip l = rstripBy isPySpace (l.dropWhile isPySpace) := rfl

/-- The surviving canonical tokens of `_clean_name`: word runs of the
lower-cased folded input, with stopword tokens removed. -/
def cleanToks (s : String) : List (List Char) :=
  (((subRuns (fun c => !isLowerAlnum c)
      (List.map pyLowerChar (nfkdAsciiFold s.data))).splitOn ' ').map subStopTok).filter
    (fun e => !e.isEmpty && e.all (fun c => !isPySpace c))

/-- Every cleaned name is its canonical tokens joined by single spaces. -/
lemma clean_name_eq_joinSp (s : String) :
    (_clean_name (some s)).data = joinSp (cleanToks s) := by
  show (String.mk (pyStrip (subRuns isPySpace (subStopwords
      (subRuns (fun c => !isLowerAlnum c)
        (List.map pyLowerChar (nfkdAsciiFold s.data))))))).data = _
  set m := subRuns (fun c => !isLowerAlnum c) (List.map pyLowerChar (nfkdAsciiFold s.data))
    with hm
  set es := (m.splitOn ' ').map subStopTok with hes
  have hok : ∀ e ∈ es, (∀ c ∈ e, ¬ isPySpace c = true) ∨ (∀ c ∈ e, isPySpace c = true) := by
    intro e he
    rw [hes] at he
    obtain ⟨t, ht, hte⟩ := List.mem_map.mp he
    by_cases hstop : t ∈ STOPWORDS
    · right
      rw [← hte, subStopTok, if_pos hstop]
      intro c hc
      simp at hc
      subst hc
      decide
    · left
      rw [← hte, subStopTok, if_neg hstop]
      intro c hc
      obtain ⟨hcm, hcs⟩ := splitOn_entry_chars m t ht c hc
      rcases subRunsAux_chars _ _ false c hcm with h | ⟨_, h2⟩
      · exact absurd h hcs
      · have : isLowerAlnum c = true := by
          cases hh : isLowerAlnum c with
          | true => rfl
          | false => exact absurd (by rw [hh]; rfl) h2
        rw [isLowerAlnum_not_pyspace c this]
        simp
  show (pyStrip (subRuns isPySpace (subStopwords m))) = _
  have hsw : subStopwords m = joinSp es := by rw [subStopwords, hes]
  rw [hsw, pyStrip_eq_rstrip, subRuns,
    strip_subRuns_eq isPySpace (by decide) (joinSp es),
    wordRuns_joinSp isPySpace (by decide) es hok]
  rw [cleanToks]

/-- The canonical tokens are nonempty lower-alphanumeric words that are
not stopwords. -/
lemma cleanToks_entries (s : String) :
    ∀ e ∈ cleanToks s,
      e ≠ [] ∧ (∀ c ∈ e, isLowerAlnum c = true) ∧ e ∉ STOPWORDS := by
  intro e he
  rw [cleanToks] at he
  obtain ⟨hmem, hkeep⟩ := List.mem_filter.mp he
  obtain ⟨t, ht, hte⟩ := List.mem_map.mp hmem
  have hne : e ≠ [] := by
    intro hcon
    rw [hcon] at hkeep
    simp at hkeep
  by_cases hstop : t ∈ STOPWORDS
  · exfalso
    rw [← hte, subStopTok, if_pos hstop] at hkeep
    simp at hkeep
    exact absurd hkeep (by decide)
  · have hte' : e = t := by rw [← hte, subStopTok, if_neg hstop]
    subst hte'
    refine ⟨hne, ?_, hstop⟩
    intro c hc
    obtain ⟨hcm, hcs⟩ := splitOn_entry_chars _ e ht c hc
    rcases subRunsAux_chars _ _ false c hcm with h | ⟨_, h2⟩
    · exact absurd h hcs
    · cases hh : isLowerAlnum c with
      | true => rfl
      | false => exact absurd (by rw [hh]; rfl) h2

/-- Inputs that are already in canonical-token form are fixed points of
`_clean_name`. -/
lemma clean_name_fixed (ws : List (List Char))
    (hws : ∀ w ∈ ws, w ≠ [] ∧ (∀ c ∈ w, isLowerAlnum c = true) ∧ w ∉ STOPWORDS) :
    _clean_name (some (String.mk (joinSp ws))) = String.mk (joinSp ws) := by
  cases hwsc : ws with
  | nil => decide
  | cons w0 ws0 =>
  rw [← hwsc]
  have hwords : ∀ w ∈ ws, w ≠ [] ∧ ∀ c ∈ w, ¬ (!isLowerAlnum c) = true := by
    intro w hw
    refine ⟨(hws w hw).1, ?_⟩
    intro c hc
    rw [(hws w hw).2.1 c hc]
    simp
  have hwordsSp : ∀ w ∈ ws, w ≠ [] ∧ ∀ c ∈ w, ¬ isPySpace c = true := by
    intro w hw
    refine ⟨(hws w hw).1, ?_⟩
    intro c hc
    rw [isLowerAlnum_not_pyspace c ((hws w hw).2.1 c hc)]
    simp
  have h128 : ∀ c ∈ joinSp ws, c.toNat < 128 := by
    intro c hc
    rcases joinSp_chars ws c hc with h | ⟨e, he, hce⟩
    · subst h; decide
    · exact isLowerAlnum_ascii c ((hws e he).2.1 c hce)
  have hAZ : ∀ c ∈ joinSp ws, ('A' ≤ c && c ≤ 'Z') = false := by
    intro c hc
    rcases joinSp_chars ws c hc with h | ⟨e, he, hce⟩
    · subst h; decide
    · exact isLowerAlnum_not_upper c ((hws e he).2.1 c hce)
  show String.mk (pyStrip (subRuns isPySpace (subStopwords
      (subRuns (fun c => !isLowerAlnum c)
        (List.map pyLowerChar (nfkdAsciiFold (joinSp ws))))))) = _
  simp only [subRuns]
  rw [nfkdAsciiFold_ascii_id (joinSp ws) h128, map_pyLowerChar_id (joinSp ws) hAZ,
    subRuns_joinSp_words (fun c => !isLowerAlnum c) (by decide) ws hwords]
  have hsplit : (joinSp ws).splitOn ' ' = ws := by
    rw [joinSp]
    refine List.splitOn_intercalate ws ' ' ?_ ?_
    · intro w hw hcon
      exact isLowerAlnum_ne_space ' ' ((hws w hw).2.1 ' ' hcon) rfl
    · rw [hwsc]; simp
  have hmap : ws.map subStopTok = ws := by
    have hid : ∀ w ∈ ws, subStopTok w = w := by
      intro w hw
      rw [subStopTok, if_neg (hws w hw).2.2]
    calc ws.map subStopTok = ws.map id := List.map_congr_left hid
    _ = ws := List.map_id ws
  rw [subStopwords, hsplit, hmap]
  have hpred : ∀ w ∈ ws, (!w.isEmpty && w.all (fun c => !isPySpace c)) = true := by
    intro w hw
    rw [Bool.and_eq_true]
    constructor
    · cases hwn : w with
      | nil => exact absurd hwn (hws w hw).1
      | cons a b => rfl
    · rw [List.all_eq_true]
      intro c hc
      rw [isLowerAlnum_not_pyspace c ((hws w hw).2.1 c hc)]
      rfl
  rw [pyStrip_eq_rstrip, strip_subRuns_eq isPySpace (by decide) (joinSp ws),
    wordRuns_joinSp isPySpace (by decide) ws (fun w hw => Or.inl (hwordsSp w hw).2),
    List.filter_eq_self.mpr hpred]

/-- C2: the name canonicalizer `_clean_name` is idempotent — cleaning a
cleaned name returns it unchanged. -/
theorem clean_name_idempotent (s : String) :
    _clean_name (some (_clean_name (some s))) = _clean_name (some s) := by
  have hform := clean_name_eq_joinSp s
  have hs : _clean_name (some s) = String.mk (joinSp (cleanToks s)) := String.ext hform
  rw [hs]
  exact clean_name_fixed (cleanToks s) (cleanToks_entries s)

/-! ## DataFrame model

A pandas `DataFrame` is modelled as the list of its column labels plus
its rows, each row a list of cells parallel to the label list.
`reset_index(drop=True)` is the identity in this model (row order is
positional). -/

/-- A pandas cell: a string, a number (int/float modelled as `Rat`), or
a missing value (`NaN`/`pd.NA`/`None`). -/
inductive Cell where
  | str (s : String)
  | num (q : Rat)
  | null
deriving DecidableEq

/-- Column labels and rows. -/
structure DF where
  cols : List String
  rows : List (List Cell)
deriving DecidableEq

/-- Position of the first column with the given label. -/
def colIdx (cols : List String) (c : String) : Option Nat :=
  match cols with
  | [] => none
  | d :: rest => if d == c then some 0 else (colIdx rest c).map (· + 1)

/-- The cell of row `r` in the column at `oi` (missing ↦ null; the
source guards every column access with a membership test). -/
def getCell (r : List Cell) (oi : Option Nat) : Cell :=
  match oi with
  | none => Cell.null
  | some j => r.getD j Cell.null

/-- `df[c]` for one row. -/
def cellAt (df : DF) (c : String) (r : List Cell) : Cell :=
  getCell r (colIdx df.cols c)

/-- `out[c] = out[c].map(f)`-style whole-column transform; identity when
the column is absent (the source guards each with `c in out.columns`). -/
def mapCol (df : DF) (c : String) (f : Cell → Cell) : DF :=
  match colIdx df.cols c with
  | none => df
  | some j => ⟨df.cols, df.rows.map (fun r => r.set j (f (r.getD j Cell.null)))⟩

/-- `Series.astype(str)` on one cell: strings stay, `NaN` becomes the
literal string `"nan"`; the numeric branch approximates Python `repr`
and is not relied on by any theorem (the columns so converted hold
strings or `NaN` in this pipeline). -/
def astypeStrCell : Cell → Cell
  | Cell.str s => Cell.str s
  | Cell.num q => Cell.str (if q.den = 1 then toString q.num else toString q)
  | Cell.null => Cell.str "nan"

/-- vendor_name cleaning: `astype(str)`, collapse `\s+` runs to one
space, strip. -/
def cleanVendorCell (c : Cell) : Cell :=
  match astypeStrCell c with
  | Cell.str s => Cell.str (String.mk (pyStrip (subRuns isPySpace s.data)))
  | c2 => c2

/-- `str.replace(r"[^\d.,-]", "", regex=True)`: keep only digits, dots,
commas and minus signs. -/
def stripAmountChars (s : String) : String :=
  String.mk (s.data.filter (fun c => isAsciiDigit c || c == '.' || c == ',' || c == '-'))

/-- `str.replace(",", "")`: drop the thousands separators. -/
def removeCommas (s : String) : String :=
  String.mk (s.data.filter (fun c => !(c == ',')))

/-- Digit run to its value. -/
def digitsToNat (l : List Char) : Nat :=
  l.foldl (fun a c => a * 10 + (c.toNat - 48)) 0

/-- An unsigned decimal literal: digits with at most one dot and at
least one digit overall. -/
def parseUnsignedDecimal (l : List Char) : Option Rat :=
  match l.splitOn '.' with
  | [intPart] =>
      if !intPart.isEmpty && intPart.all isAsciiDigit then some (digitsToNat intPart) else none
  | [intPart, fracPart] =>
      if (!intPart.isEmpty || !fracPart.isEmpty) && intPart.all isAsciiDigit
          && fracPart.all isAsciiDigit then
        some ((digitsToNat intPart : Rat)
          + (digitsToNat fracPart : Rat) / ((10 : Rat) ^ fracPart.length))
      else none
  | _ => none

/-- Python float parsing as used by `pd.to_numeric` on the strings this
pipeline produces: surrounding whitespace stripped, optional sign, a
decimal literal.  (Scientific notation and inf literals cannot reach
the amount path, whose character filter removes `e`/`n`/`f`; they are
conservatively unparsable here.) -/
def pyFloatParse (s : String) : Option Rat :=
  match pyStrip s.data with
  | '-' :: rest => (parseUnsignedDecimal rest).map (fun q => -q)
  | '+' :: rest => parseUnsignedDecimal rest
  | t => parseUnsignedDecimal t

/-- `pd.to_numeric(·, errors="coerce")` on one cell. -/
def toNumericCell : Cell → Cell
  | Cell.str s =>
      match pyFloatParse s with
      | some q => Cell.num q
      | none => Cell.null
  | Cell.num q => Cell.num q
  | Cell.null => Cell.null

/-- The full amount transform of `standardize`. -/
def amountCell (c : Cell) : Cell :=
  match astypeStrCell c with
  | Cell.str s => toNumericCell (Cell.str (removeCommas (stripAmountChars s)))
  | c2 => toNumericCell c2

/-- `.astype("Int64")` after `to_numeric(errors="coerce")`.  On the
integral or missing values produced here it is the identity; pandas
would raise on a non-integral float, a branch no claim exercises. -/
def toInt64Cell (c : Cell) : Cell := toNumericCell c

/-- Month list `MONTH_ORDER` from `src/functions.py`. -/
def MONTH_ORDER : List String :=
  ["January", "February", "March", "April", "May", "June", "July",
   "August", "September", "October", "November", "December"]

/-- Python `str.title()` on ASCII text. -/
def pyTitleAux : Bool → List Char → List Char
  | _, [] => []
  | prevAlpha, c :: rest =>
      (if isAsciiAlpha c then (if prevAlpha then pyLowerChar c else pyUpperChar c) else c)
        :: pyTitleAux (isAsciiAlpha c) rest

def pyTitle (s : String) : String := String.mk (pyTitleAux false s.data)

/-- report_month transform: `astype(str).str.title()`, then `.where`
membership in `MONTH_ORDER` (else missing); the categorical astype
preserves the values. -/
def monthCell (c : Cell) : Cell :=
  match astypeStrCell c with
  | Cell.str s =>
      let t := pyTitle s
      if MONTH_ORDER.contains t then Cell.str t else Cell.null
  | c2 => c2

/-- county/sub_county tidy: `astype(str).str.strip()`, then the sentinel
strings `""`, `"nan"`, `"None"` become missing. -/
def tidyCountyCell (c : Cell) : Cell :=
  match astypeStrCell c with
  | Cell.str s =>
      let t := String.mk (pyStrip s.data)
      if t == "" || t == "nan" || t == "None" then Cell.null else Cell.str t
  | c2 => c2

/-- The soft-rename mapping of `standardize`: the canonical field name
for a raw column label, matched on `label.lower().strip()`; unmatched
labels are left unchanged (`df.rename` ignores them). -/
def canonColName (c : String) : String :=
  let lc := String.mk (pyStrip (c.data.map pyLowerChar))
  if lc ∈ ["vendor", "facility", "provider", "vendor_name"] then "vendor_name"
  else if lc ∈ ["claim", "claims"] then "claims"
  else if lc ∈ ["amount", "kes", "ksh"] then "amount"
  else if lc ∈ ["report_month", "month"] then "report_month"
  else if lc ∈ ["report_year", "year"] then "report_year"
  else if lc ∈ ["schedule", "batch"] then "schedule"
  else if lc = "county" then "county"
  else if lc ∈ ["sub_county", "subcounty", "sub-county"] then "sub_county"
  else if lc ∈ ["latitude", "lat"] then "latitude"
  else if lc ∈ ["lon", "lng", "longitude"] then "longitude"
  else c

/-- The `drop blank vendors` step: keep rows whose vendor_name cell is a
non-missing value of positive string length (`notna & str.len > 0`). -/
def dropBlankVendors (df : DF) : DF :=
  match colIdx df.cols "vendor_name" with
  | none => df
  | some j =>
      ⟨df.cols, df.rows.filter (fun r =>
        match r.getD j Cell.null with
        | Cell.str s => !s.isEmpty
        | _ => false)⟩

/-- Shallow embedding of `standardize` from `src/functions.py`. -/
def standardize (df : DF) : DF :=
  if df.rows.isEmpty || df.cols.isEmpty then df
  else
    let out0 : DF := ⟨df.cols.map canonColName, df.rows⟩
    let out1 := mapCol out0 "vendor_name" cleanVendorCell
    let out2 := mapCol out1 "amount" amountCell
    let out3 := mapCol out2 "report_year" toInt64Cell
    let out4 := mapCol out3 "report_month" monthCell
    let out5 := mapCol out4 "schedule" toInt64Cell
    let out6 := mapCol out5 "county" tidyCountyCell
    let out7 := mapCol out6 "sub_county" tidyCountyCell
    let out8 := mapCol out7 "latitude" toNumericCell
    let out9 := mapCol out8 "longitude" toNumericCell
    dropBlankVendors out9

/-- `PAGE_ROW_RE = re.compile(r"^\s*page\s*\d+", re.I)`, used through
`Series.str.match`, i.e. anchored at the start of the string. -/
def pageRowMatch (s : String) : Bool :=
  match s.data.dropWhile isPySpace with
  | p :: a :: g :: e :: rest =>
      if pyLowerChar p == 'p' && pyLowerChar a == 'a'
          && pyLowerChar g == 'g' && pyLowerChar e == 'e' then
        match rest.dropWhile isPySpace with
        | d :: _ => isAsciiDigit d
        | [] => false
      else false
  | _ => false

/-- The per-cell page-marker test of `remove_page_rows` (after
`astype(str)`). -/
def pageRowCell (c : Cell) : Bool :=
  match astypeStrCell c with
  | Cell.str s => pageRowMatch s
  | _ => false

/-- Shallow embedding of `remove_page_rows` from `src/functions.py`. -/
def remove_page_rows (df : DF) : DF :=
  if colIdx df.cols "vendor_name" = none || df.rows.isEmpty || df.cols.isEmpty then df
  else
    match colIdx df.cols "vendor_name" with
    | none => df
    | some j =>
        ⟨df.cols, df.rows.filter (fun r => !pageRowCell (r.getD j Cell.null))⟩

/-! ## Filters and aggregates -/

/-- Python truthiness of an optional string list (`None` and `[]` falsy). -/
def truthyStrList : Option (List String) → Bool
  | none => false
  | some l => !l.isEmpty

/-- Python truthiness of an optional integer list. -/
def truthyIntList : Option (List Int) → Bool
  | none => false
  | some l => !l.isEmpty

/-- `v.lower().strip()` for the vendor filter set. -/
def vendorLowerTrim (v : String) : String :=
  String.mk (pyStrip (v.data.map pyLowerChar))

/-- Row test of the vendor criterion:
`out["vendor_name"].str.lower().isin({v.lower().strip() for v in vendors})`
(missing or non-string cells fail the membership test). -/
def vendorPass (cols : List String) (vendors : List String) (r : List Cell) : Bool :=
  match getCell r (colIdx cols "vendor_name") with
  | Cell.str s => (vendors.map vendorLowerTrim).contains (String.mk (s.data.map pyLowerChar))
  | _ => false

/-- Row test of the month criterion:
`out["report_month"].isin({m.title() for m in months})`. -/
def monthPass (cols : List String) (months : List String) (r : List Cell) : Bool :=
  match getCell r (colIdx cols "report_month") with
  | Cell.str s => (months.map pyTitle).contains s
  | _ => false

/-- Row test of the year criterion: `out["report_year"].isin(years)`. -/
def yearPass (cols : List String) (years : List Int) (r : List Cell) : Bool :=
  match getCell r (colIdx cols "report_year") with
  | Cell.num q => years.any (fun y => q == (y : Rat))
  | _ => false

/-- The vendor block of `filter_data`:
`if vendors and "vendor_name" in out.columns: out = out[...]`. -/
def vendorStage (df : DF) (vendors : Option (List String)) : DF :=
  if truthyStrList vendors && (colIdx df.cols "vendor_name").isSome then
    ⟨df.cols, df.rows.filter (vendorPass df.cols (vendors.getD []))⟩
  else df

/-- The month block of `filter_data`. -/
def monthStage (df : DF) (months : Option (List String)) : DF :=
  if truthyStrList months && (colIdx df.cols "report_month").isSome then
    ⟨df.cols, df.rows.filter (monthPass df.cols (months.getD []))⟩
  else df

/-- The year block of `filter_data`. -/
def yearStage (df : DF) (years : Option (List Int)) : DF :=
  if truthyIntList years && (colIdx df.cols "report_year").isSome then
    ⟨df.cols, df.rows.filter (yearPass df.cols (years.getD []))⟩
  else df

/-- Shallow embedding of `filter_data` from `src/functions.py`: each
criterion applies only when its argument is truthy and its column
exists; the three blocks filter the rows in sequence, and the final
`reset_index(drop=True)` is the identity in this model. -/
def filter_data (df : DF) (vendors : Option (List String))
    (months : Option (List String)) (years : Option (List Int)) : DF :=
  yearStage (monthStage (vendorStage df vendors) months) years

/-- Result record of `totals`. -/
structure TotalsResult where
  total_amount : Rat
  total_facilities : Nat
  total_claims : Nat
  rows : Nat
deriving DecidableEq

/-- Shallow embedding of `totals` from `src/functions.py`:
`float(df["amount"].sum(skipna=True))` (numeric cells summed, missing
contribute nothing; 0.0 when the column is absent),
`int(df["vendor_name"].nunique())` (distinct non-missing values),
`total_claims` constantly 0, and the row count. -/
def totals (df : DF) : TotalsResult :=
  let amountSum : Rat :=
    match colIdx df.cols "amount" with
    | none => 0
    | some j =>
        (df.rows.map (fun r =>
          match r.getD j Cell.null with
          | Cell.num q => q
          | _ => 0)).sum
  let facilities : Nat :=
    match colIdx df.cols "vendor_name" with
    | none => 0
    | some j =>
        ((df.rows.filterMap (fun r =>
          match r.getD j Cell.null with
          | Cell.null => none
          | c => some c)).dedup).length
  ⟨amountSum, facilities, 0, df.rows.length⟩

/-! ## Registry enrichment model (`enrich_with_registry`)

A disbursement row is represented by the one field enrichment reads
(`vendor_name`); the other columns ride along unchanged in the source
and play no role in the claims.  The registry rows carry the canonical
key and the seven attribute columns (`key_cols`).  The guard branch
that returns the input unchanged (empty input, empty registry — and in
the source also a missing vendor_name column, which this representation
cannot express) is `Sum.inl`. -/

/-- rapidfuzz imports successfully in the deployed environment. -/
def HAVE_RAPIDFUZZ : Bool := true

/-- The registry attribute columns carried by the join (`key_cols`);
every field is nullable, as pandas cells are. -/
structure RegAttrs where
  facility_id : Option String
  official_name : Option String
  name : Option String
  county : Option String
  sub_county : Option String
  facility_type : Option String
  keph_level : Option String
deriving DecidableEq

/-- The all-null attribute record of an unresolved row. -/
def noAttrs : RegAttrs := ⟨none, none, none, none, none, none, none⟩

/-- One registry row. -/
structure RegRow where
  facility_name_clean : String
  attrs : RegAttrs
deriving DecidableEq

/-- One disbursement row. -/
structure DisbRow where
  vendor_name : String
deriving DecidableEq

/-- One row of the exact-pass left merge. -/
structure ExactRow where
  vendor_name : String
  vendor_clean : String
  attrs : RegAttrs
deriving DecidableEq

/-- One row of the enriched output (`vendor_clean` and `match_key` are
dropped at the end; `match_score` is none where the fuzzy pass did not
assign it). -/
structure EnrichedRow where
  vendor_name : String
  attrs : RegAttrs
  match_score : Option Rat
deriving DecidableEq

/-- The pandas left merge
`work.merge(reg[["facility_name_clean"] + key_cols], left_on="vendor_clean",
right_on="facility_name_clean", how="left")` for one left row: one
output row per matching registry row in registry order, or a single
row with null attributes when nothing matches. -/
def mergeOne (reg : List RegRow) (r : DisbRow) : List ExactRow :=
  let vc := _clean_name (some r.vendor_name)
  let ms := reg.filter (fun g => g.facility_name_clean == vc)
  if ms.isEmpty then [⟨r.vendor_name, vc, noAttrs⟩]
  else ms.map (fun g => ⟨r.vendor_name, vc, g.attrs⟩)

/-- The exact pass over the whole dataset. -/
def exactPass (df : List DisbRow) (reg : List RegRow) : List ExactRow :=
  df.flatMap (mergeOne reg)

/-- Python `str.split()` with no argument: maximal runs of non-whitespace
characters (structural worker, kernel-evaluable). -/
def pySplitGo : List Char → List Char → List (List Char)
  | acc, [] => if acc.isEmpty then [] else [acc.reverse]
  | acc, c :: rest =>
    if isPySpace c then
      if acc.isEmpty then pySplitGo [] rest
      else acc.reverse :: pySplitGo [] rest
    else pySplitGo (c :: acc) rest

def pySplit (s : String) : List (List Char) :=
  pySplitGo [] s.data

/-- Python string `<=`: lexicographic comparison by code point. -/
def lexLeChars : List Char → List Char → Bool
  | [], _ => true
  | _ :: _, [] => false
  | c :: cs, d :: ds => if c == d then lexLeChars cs ds else decide (c < d)

/-- Insertion sort under the lexicographic string order (the result of
Python `sorted` on the token list; stability is irrelevant under a
total order on the keys). -/
def insertSorted (x : List Char) : List (List Char) → List (List Char)
  | [] => [x]
  | y :: rest => if lexLeChars x y then x :: y :: rest else y :: insertSorted x rest

def sortToks : List (List Char) → List (List Char)
  | [] => []
  | x :: rest => insertSorted x (sortToks rest)

/-- One dynamic-programming row step for the longest common
subsequence: `prev` is the previous row, `left` the entry just
computed in the current row. -/
def lcsRowAux (c : Char) : List Char → List Nat → Nat → List Nat
  | [], _, _ => []
  | b :: brest, pdiag :: prest, left =>
      let cur := if b == c then pdiag + 1 else max left (prest.headD 0)
      cur :: lcsRowAux c brest prest cur
  | _ :: _, [], _ => []

/-- Length of a longest common subsequence (row dynamic programming). -/
def lcsLen (a b : List Char) : Nat :=
  (a.foldl (fun prev c => 0 :: lcsRowAux c b prev 0)
    (List.replicate (b.length + 1) 0)).getLastD 0

/-- `rapidfuzz fuzz.ratio`: the normalized indel similarity as a
percentage, `100·(1 − dist/(|a|+|b|))` with the indel distance
`dist = |a|+|b| − 2·lcs(a,b)`, i.e. `200·lcs/(|a|+|b|)`; two empty
strings score 100. -/
def fuzzRatioScore (a b : List Char) : Rat :=
  if a.isEmpty && b.isEmpty then 100
  else Rat.divInt (200 * lcsLen a b) (a.length + b.length)

/-- `fuzz.token_sort_ratio`: sort the whitespace-separated tokens of
each side, join with single spaces, and take the indel ratio. -/
def tokenSortScore (a b : String) : Rat :=
  fuzzRatioScore (joinSp (sortToks (pySplit a))) (joinSp (sortToks (pySplit b)))

/-- `rapidfuzz.process.extractOne(q, choices, scorer=fuzz.token_sort_ratio,
score_cutoff=cutoff)`: the highest-scoring choice with score at least
the cutoff (first occurrence wins ties), or none. -/
def extractOne (q : String) (choices : List String) (cutoff : Rat) :
    Option (String × Rat) :=
  choices.foldl (fun acc c =>
    let sc := tokenSortScore q c
    if cutoff ≤ sc then
      match acc with
      | none => some (c, sc)
      | some (c0, sc0) => if sc0 < sc then some (c, sc) else some (c0, sc0)
    else acc) none

/-- `best_match` from `enrich_with_registry`: empty queries never match;
otherwise `extractOne`, with `(None, 0)` when nothing reaches the
cutoff. -/
def best_match (choices : List String) (cutoff : Rat) (q : String) :
    Option String × Rat :=
  if q.isEmpty then (none, 0)
  else
    match extractOne q choices cutoff with
    | none => (none, 0)
    | some (k, sc) => (some k, sc)

/-- Lookup in `reg.set_index("facility_name_clean")[key_cols].to_dict("index")`.
The dict is only ever built after the duplicate-key check has passed
(`to_dict(orient="index")` raises `ValueError` on a non-unique index,
which `enrich_with_registry` models as the `none` outcome), so at
every call site the filtered list has at most one element and
`getLast?` is the dict lookup of the unique matching registry row. -/
def regTake (reg : List RegRow) (k : String) : RegAttrs :=
  match (reg.filter (fun g => g.facility_name_clean == k)).getLast? with
  | some g => g.attrs
  | none => noAttrs

/-- Whether the registry's `facility_name_clean` keys contain a
duplicate: exactly when `set_index("facility_name_clean")` has a
non-unique index, making `to_dict(orient="index")` raise. -/
def hasDupKeys : List RegRow → Bool
  | [] => false
  | g :: gs =>
      gs.any (fun g2 => g2.facility_name_clean == g.facility_name_clean)
        || hasDupKeys gs

/-- The fuzzy pass on one merged row: rows with a present facility_id
are left as they are (score column untouched, i.e. null); unresolved
rows get `best_match` on their cleaned vendor name, the accepted key's
registry attributes, and the match score (0 when nothing was
accepted). -/
def fuzzyStep (reg : List RegRow) (cutoff : Rat) (er : ExactRow) : EnrichedRow :=
  if er.attrs.facility_id.isSome then ⟨er.vendor_name, er.attrs, none⟩
  else
    match best_match (reg.map (fun g => g.facility_name_clean)) cutoff er.vendor_clean with
    | (none, sc) => ⟨er.vendor_name, er.attrs, some sc⟩
    | (some k, sc) => ⟨er.vendor_name, regTake reg k, some sc⟩

/-- Shallow embedding of `enrich_with_registry` from `src/functions.py`
(no fuzzy pass when disabled or rapidfuzz is unavailable; the helper
columns are dropped from the result, which the output row type
reflects).  The fuzzy pass runs only when some merged row is
unresolved (`exact["facility_id"].isna().any()`); in that case it
first builds `reg.set_index("facility_name_clean")[...].to_dict("index")`,
which raises `ValueError` when the registry keys are not unique —
modelled as the `none` outcome.  When every row is resolved the fuzzy
block is skipped and no `match_score` column is ever assigned. -/
def enrich_with_registry (df : List DisbRow) (reg : List RegRow)
    (fuzzy : Bool) (score_cutoff : Rat) :
    Option (List DisbRow ⊕ List EnrichedRow) :=
  if df.isEmpty || reg.isEmpty then some (Sum.inl df)
  else
    let exact := exactPass df reg
    if !fuzzy || !HAVE_RAPIDFUZZ then
      some (Sum.inr (exact.map (fun er => ⟨er.vendor_name, er.attrs, none⟩)))
    else
      if exact.any (fun er => !er.attrs.facility_id.isSome) then
        if hasDupKeys reg then none
        else some (Sum.inr (exact.map (fuzzyStep reg score_cutoff)))
      else
        some (Sum.inr (exact.map (fun er => ⟨er.vendor_name, er.attrs, none⟩)))

/-- The best token-sort score of a query against all registry keys. -/
def bestScore (reg : List RegRow) (q : String) : Rat :=
  (reg.map (fun g => tokenSortScore q g.facility_name_clean)).foldl max 0

/-- The number of registry rows whose canonical key matches a row's
cleaned vendor name exactly. -/
def matchCount (reg : List RegRow) (r : DisbRow) : Nat :=
  (reg.filter (fun g => g.facility_name_clean == _clean_name (some r.vendor_name))).length

/-! ## Structural lemmas about the DataFrame operations -/

lemma mapCol_cols (df : DF) (c : String) (f : Cell → Cell) :
    (mapCol df c f).cols = df.cols := by
  cases h : colIdx df.cols c <;> simp [mapCol, h]

lemma dropBlankVendors_cols (df : DF) : (dropBlankVendors df).cols = df.cols := by
  cases h : colIdx df.cols "vendor_name" <;> simp [dropBlankVendors, h]

/-! ## Claim theorems -/

/-- C3 (code bug): `standardize` is specified to drop every row with an
empty or missing vendor_name, and its `notna()` mask shows that intent;
but `astype(str)` has already turned a missing vendor_name into the
literal string `"nan"`, so the mask never fires and the row survives
with vendor_name `"nan"`.  A whitespace-only vendor_name is dropped as
specified.  This theorem evaluates the embedded `standardize` at both
inputs. -/
theorem standardize_null_vendor_row_survives :
    standardize ⟨["vendor_name"], [[Cell.null]]⟩ = ⟨["vendor_name"], [[Cell.str "nan"]]⟩ ∧
    standardize ⟨["vendor_name"], [[Cell.str "   "]]⟩ = ⟨["vendor_name"], []⟩ := by
  constructor
  · decide
  · decide

/-- C4 (counterexample): the column `"foo"` matches no synonym set, yet
`standardize` keeps it — `df.rename` leaves unmatched columns in place,
so the output is not restricted to the fixed schema. -/
theorem standardize_keeps_unmatched_column :
    (standardize ⟨["foo", "vendor"], [[Cell.str "x", Cell.str "Acme"]]⟩).cols
      = ["foo", "vendor_name"] ∧
    "foo" ∈ (standardize ⟨["foo", "vendor"], [[Cell.str "x", Cell.str "Acme"]]⟩).cols := by
  constructor
  · decide
  · decide

/-- C4 (amended): `standardize` matches column labels case-insensitively
(on the lower-cased stripped label) against the synonym sets and renames
the matched ones to canonical field names, and it leaves every unmatched
column in the output unchanged (rather than dropping it): the output
columns are exactly the input columns mapped through the rename. -/
theorem standardize_cols_renamed (df : DF) (hr : ¬ df.rows.isEmpty) :
    (standardize df).cols = df.cols.map canonColName ∧
    canonColName "VENDOR" = "vendor_name" ∧ canonColName " Kes " = "amount" ∧
    canonColName "Provider" = "vendor_name" ∧ canonColName "foo" = "foo" := by
  refine ⟨?_, by decide, by decide, by decide, by decide⟩
  by_cases hc : df.cols.isEmpty
  · have h1 : df.cols = [] := by
      cases hcc : df.cols with
      | nil => rfl
      | cons a b => rw [hcc] at hc; simp at hc
    rw [standardize, if_pos (by rw [hc]; simp), h1]
    rfl
  · have hg : ¬ (df.rows.isEmpty || df.cols.isEmpty) = true := by
      simp only [Bool.or_eq_true]
      rintro (h | h)
      · exact hr h
      · exact hc h
    rw [standardize, if_neg hg]
    simp only [dropBlankVendors_cols, mapCol_cols]

/-- C4 (witness for the amended theorem at a concrete input). -/
theorem standardize_cols_renamed_witness :
    ¬ (DF.mk ["foo", "vendor"] [[Cell.str "x", Cell.str "Acme"]]).rows.isEmpty ∧
    ((standardize ⟨["foo", "vendor"], [[Cell.str "x", Cell.str "Acme"]]⟩).cols
        = ["foo", "vendor"].map canonColName ∧
      canonColName "VENDOR" = "vendor_name" ∧ canonColName " Kes " = "amount" ∧
      canonColName "Provider" = "vendor_name" ∧ canonColName "foo" = "foo") :=
  ⟨by decide, standardize_cols_renamed ⟨["foo", "vendor"], [[Cell.str "x", Cell.str "Acme"]]⟩ (by decide)⟩

set_option maxHeartbeats 2000000 in
/-- C5: the amount transform of `standardize` strips every character
other than digits, dots, commas and minus signs, removes the commas,
and coerces the remainder to a number; an unparsable value becomes null
while the row is retained, and every cell yields either a number or
null (standardization is total — it never raises on a bad cell).
`"KES 1,250.50"` parses to 1250.50 and `"abc"` becomes null. -/
theorem standardize_amount_correct :
    (∀ c : Cell, standardize ⟨["amount"], [[c]]⟩ = ⟨["amount"], [[amountCell c]]⟩) ∧
    (∀ s : String, amountCell (Cell.str s)
      = toNumericCell (Cell.str (removeCommas (stripAmountChars s)))) ∧
    amountCell (Cell.str "KES 1,250.50") = Cell.num ((2501 : Rat) / 2) ∧
    amountCell (Cell.str "abc") = Cell.null ∧
    (∀ c : Cell, amountCell c = Cell.null ∨ ∃ q, amountCell c = Cell.num q) := by
  have htot : ∀ s : String, toNumericCell (Cell.str s) = Cell.null ∨
      ∃ q, toNumericCell (Cell.str s) = Cell.num q := by
    intro s
    rw [toNumericCell]
    cases pyFloatParse s with
    | none => left; rfl
    | some q => right; exact ⟨q, rfl⟩
  refine ⟨fun c => rfl, fun s => rfl, by decide, by decide, ?_⟩
  intro c
  cases c with
  | str s => exact htot _
  | num q =>
      rw [amountCell]
      rw [astypeStrCell]
      exact htot _
  | null =>
      rw [amountCell]
      rw [astypeStrCell]
      exact htot _

lemma sum_match_eq_filterMap (j : Nat) (rows : List (List Cell)) :
    (rows.map (fun r => match r.getD j Cell.null with
      | Cell.num q => q
      | _ => 0)).sum
      = (rows.filterMap (fun r => match r.getD j Cell.null with
          | Cell.num q => some q
          | _ => none)).sum := by
  induction rows with
  | nil => rfl
  | cons r rest ih =>
    rw [List.map_cons, List.filterMap_cons]
    cases h : r.getD j Cell.null with
    | num q => simp only [h, List.sum_cons, ih]
    | str s => simp only [h, List.sum_cons, ih, Rat.zero_add]
    | null => simp only [h, List.sum_cons, ih, Rat.zero_add]

/-- C8: `totals` of an empty dataset is amount 0.0, facility count 0 and
row count 0 (whatever the columns); and on any dataset whose amount
column holds numbers or nulls, the total amount is the sum of the
non-null amounts — null cells contribute nothing. -/
theorem totals_correct (df : DF) (j : Nat) (hj : colIdx df.cols "amount" = some j)
    (_hnum : ∀ r ∈ df.rows,
      (∃ q, r.getD j Cell.null = Cell.num q) ∨ r.getD j Cell.null = Cell.null) :
    (totals df).total_amount
      = (df.rows.filterMap (fun r => match r.getD j Cell.null with
          | Cell.num q => some q
          | _ => none)).sum ∧
    (∀ cols : List String, totals ⟨cols, []⟩ = ⟨0, 0, 0, 0⟩) := by
  constructor
  · simp only [totals, hj]
    exact sum_match_eq_filterMap j df.rows
  · intro cols
    cases h1 : colIdx cols "amount" <;> cases h2 : colIdx cols "vendor_name" <;>
      simp [totals, h1, h2]

/-- C8 (witness): `totals_correct` applied to a concrete table with one
null amount among numbers. -/
theorem totals_correct_witness :
    colIdx ["vendor_name", "amount"] "amount" = some 1 ∧
    (∀ r ∈ [[Cell.str "a", Cell.num 3], [Cell.str "b", Cell.null]],
      (∃ q, r.getD 1 Cell.null = Cell.num q) ∨ r.getD 1 Cell.null = Cell.null) ∧
    ((totals ⟨["vendor_name", "amount"],
        [[Cell.str "a", Cell.num 3], [Cell.str "b", Cell.null]]⟩).total_amount
      = ([[Cell.str "a", Cell.num 3], [Cell.str "b", Cell.null]].filterMap
          (fun r => match r.getD 1 Cell.null with
            | Cell.num q => some q
            | _ => none)).sum ∧
      (∀ cols : List String, totals ⟨cols, []⟩ = ⟨0, 0, 0, 0⟩)) := by
  refine ⟨by decide, ?_, totals_correct _ 1 (by decide) ?_⟩
  · intro r hr
    rcases List.mem_cons.mp hr with h | h
    · left; exact ⟨3, by rw [h]; rfl⟩
    · simp at h; right; rw [h]; rfl
  · intro r hr
    rcases List.mem_cons.mp hr with h | h
    · left; exact ⟨3, by rw [h]; rfl⟩
    · simp at h; right; rw [h]; rfl

lemma vendorStage_cols (df : DF) (vendors : Option (List String)) :
    (vendorStage df vendors).cols = df.cols := by
  rw [vendorStage]; split <;> rfl

lemma monthStage_cols (df : DF) (months : Option (List String)) :
    (monthStage df months).cols = df.cols := by
  rw [monthStage]; split <;> rfl

lemma yearStage_cols (df : DF) (years : Option (List Int)) :
    (yearStage df years).cols = df.cols := by
  rw [yearStage]; split <;> rfl

lemma vendorStage_none (df : DF) : vendorStage df none = df := rfl

lemma monthStage_none (df : DF) : monthStage df none = df := rfl

lemma yearStage_none (df : DF) : yearStage df none = df := rfl

lemma vendorStage_of_missing (df : DF) (vendors : Option (List String))
    (h : colIdx df.cols "vendor_name" = none) : vendorStage df vendors = df := by
  rw [vendorStage, h]
  simp

lemma monthStage_of_missing (df : DF) (months : Option (List String))
    (h : colIdx df.cols "report_month" = none) : monthStage df months = df := by
  rw [monthStage, h]
  simp

lemma yearStage_of_missing (df : DF) (years : Option (List Int))
    (h : colIdx df.cols "report_year" = none) : yearStage df years = df := by
  rw [yearStage, h]
  simp

/-- C10: `filter_data` applies each of the vendor, month and year
criteria only when the corresponding column exists; when the column is
missing, the output equals the output with that filter argument absent
(the criterion imposes no constraint).  The model is total, so no
input raises. -/
theorem filter_data_missing_column (df : DF) (vendors months : Option (List String))
    (years : Option (List Int)) :
    (colIdx df.cols "vendor_name" = none →
      filter_data df vendors months years = filter_data df none months years) ∧
    (colIdx df.cols "report_month" = none →
      filter_data df vendors months years = filter_data df vendors none years) ∧
    (colIdx df.cols "report_year" = none →
      filter_data df vendors months years = filter_data df vendors months none) := by
  refine ⟨fun h => ?_, fun h => ?_, fun h => ?_⟩
  · rw [filter_data, filter_data, vendorStage_of_missing df vendors h, vendorStage_none]
  · rw [filter_data, filter_data,
      monthStage_of_missing _ months (by rw [vendorStage_cols]; exact h), monthStage_none]
  · rw [filter_data, filter_data,
      yearStage_of_missing _ years (by rw [monthStage_cols, vendorStage_cols]; exact h),
      yearStage_none]

/-- C10 (witness): on a table with none of the three columns, providing
all three filters equals providing none. -/
theorem filter_data_missing_column_witness :
    filter_data ⟨["x"], [[Cell.null]]⟩ (some ["a"]) (some ["January"]) (some [2024])
      = filter_data ⟨["x"], [[Cell.null]]⟩ none none none := by
  have h1 := (filter_data_missing_column ⟨["x"], [[Cell.null]]⟩ (some ["a"])
    (some ["January"]) (some [2024])).1 (by decide)
  have h2 := (filter_data_missing_column ⟨["x"], [[Cell.null]]⟩ none
    (some ["January"]) (some [2024])).2.1 (by decide)
  have h3 := (filter_data_missing_column ⟨["x"], [[Cell.null]]⟩ none none
    (some [2024])).2.2 (by decide)
  rw [h1, h2, h3]


/-- The effective vendor criterion: no constraint when the argument is
absent or empty, otherwise the vendor row test. -/
def vendorEff (cols : List String) (vendors : Option (List String)) (r : List Cell) : Bool :=
  match vendors with
  | none => true
  | some vl => vl.isEmpty || vendorPass cols vl r

/-- The effective month criterion. -/
def monthEff (cols : List String) (months : Option (List String)) (r : List Cell) : Bool :=
  match months with
  | none => true
  | some ml => ml.isEmpty || monthPass cols ml r

/-- The effective year criterion. -/
def yearEff (cols : List String) (years : Option (List Int)) (r : List Cell) : Bool :=
  match years with
  | none => true
  | some yl => yl.isEmpty || yearPass cols yl r

lemma vendorStage_rows (df : DF) (vendors : Option (List String))
    (hv : (colIdx df.cols "vendor_name").isSome = true) :
    (vendorStage df vendors).rows = df.rows.filter (vendorEff df.cols vendors) := by
  cases vendors with
  | none =>
      rw [vendorStage_none]
      exact (List.filter_eq_self.mpr (fun a _ => rfl)).symm
  | some vl =>
      cases he : vl.isEmpty with
      | true =>
          have hg : (truthyStrList (some vl) && (colIdx df.cols "vendor_name").isSome) = false := by
            simp [truthyStrList, he]
          rw [vendorStage, hg, if_neg Bool.false_ne_true]
          exact (List.filter_eq_self.mpr (fun a _ => by simp [vendorEff, he])).symm
      | false =>
          rw [vendorStage]
          simp only [truthyStrList, he, hv]
          simp only [Bool.not_false, Bool.true_and, if_pos]
          refine List.filter_congr ?_
          intro r _
          simp [vendorEff, he]

lemma monthStage_rows (df : DF) (months : Option (List String))
    (hm : (colIdx df.cols "report_month").isSome = true) :
    (monthStage df months).rows = df.rows.filter (monthEff df.cols months) := by
  cases months with
  | none =>
      rw [monthStage_none]
      exact (List.filter_eq_self.mpr (fun a _ => rfl)).symm
  | some ml =>
      cases he : ml.isEmpty with
      | true =>
          have hg : (truthyStrList (some ml) && (colIdx df.cols "report_month").isSome) = false := by
            simp [truthyStrList, he]
          rw [monthStage, hg, if_neg Bool.false_ne_true]
          exact (List.filter_eq_self.mpr (fun a _ => by simp [monthEff, he])).symm
      | false =>
          rw [monthStage]
          simp only [truthyStrList, he, hm]
          simp only [Bool.not_false, Bool.true_and, if_pos]
          refine List.filter_congr ?_
          intro r _
          simp [monthEff, he]

lemma yearStage_rows (df : DF) (years : Option (List Int))
    (hy : (colIdx df.cols "report_year").isSome = true) :
    (yearStage df years).rows = df.rows.filter (yearEff df.cols years) := by
  cases years with
  | none =>
      rw [yearStage_none]
      exact (List.filter_eq_self.mpr (fun a _ => rfl)).symm
  | some yl =>
      cases he : yl.isEmpty with
      | true =>
          have hg : (truthyIntList (some yl) && (colIdx df.cols "report_year").isSome) = false := by
            simp [truthyIntList, he]
          rw [yearStage, hg, if_neg Bool.false_ne_true]
          exact (List.filter_eq_self.mpr (fun a _ => by simp [yearEff, he])).symm
      | false =>
          rw [yearStage]
          simp only [truthyIntList, he, hy]
          simp only [Bool.not_false, Bool.true_and, if_pos]
          refine List.filter_congr ?_
          intro r _
          simp [yearEff, he]

/-- C7: `filter_data` returns exactly the rows satisfying all provided
criteria — AND across the three dimensions, set membership within one;
vendor matching compares the lower-cased cell against the lower-cased,
stripped filter values; an absent (`None`) or empty filter list imposes
no constraint on its dimension; and with no filter arguments the
dataset is returned unchanged. -/
theorem filter_data_correct (df : DF) (vendors months : Option (List String))
    (years : Option (List Int))
    (hv : (colIdx df.cols "vendor_name").isSome = true)
    (hm : (colIdx df.cols "report_month").isSome = true)
    (hy : (colIdx df.cols "report_year").isSome = true) :
    (filter_data df vendors months years).cols = df.cols ∧
    (filter_data df vendors months years).rows = df.rows.filter (fun r =>
      (match vendors, cellAt df "vendor_name" r with
        | none, _ => true
        | some vl, Cell.str s => vl.isEmpty ||
            vl.any (fun v => String.mk (s.data.map pyLowerChar) == vendorLowerTrim v)
        | some vl, _ => vl.isEmpty) &&
      ((match months, cellAt df "report_month" r with
        | none, _ => true
        | some ml, Cell.str s => ml.isEmpty || ml.any (fun mo => s == pyTitle mo)
        | some ml, _ => ml.isEmpty) &&
      (match years, cellAt df "report_year" r with
        | none, _ => true
        | some yl, Cell.num q => yl.isEmpty || yl.any (fun yv => q == (yv : Rat))
        | some yl, _ => yl.isEmpty))) ∧
    filter_data df none none none = df := by
  have hV : ∀ r, vendorEff df.cols vendors r
      = (match vendors, cellAt df "vendor_name" r with
        | none, _ => true
        | some vl, Cell.str s => vl.isEmpty ||
            vl.any (fun v => String.mk (s.data.map pyLowerChar) == vendorLowerTrim v)
        | some vl, _ => vl.isEmpty) := by
    intro r
    cases vendors with
    | none => rfl
    | some vl =>
        cases hcell : cellAt df "vendor_name" r with
        | str s =>
            rw [cellAt] at hcell
            simp only [vendorEff, vendorPass, hcell]
            rw [List.contains_eq_any_beq, List.any_map]
            rfl
        | num q =>
            rw [cellAt] at hcell
            simp [vendorEff, vendorPass, hcell]
        | null =>
            rw [cellAt] at hcell
            simp [vendorEff, vendorPass, hcell]
  have hM : ∀ r, monthEff df.cols months r
      = (match months, cellAt df "report_month" r with
        | none, _ => true
        | some ml, Cell.str s => ml.isEmpty || ml.any (fun mo => s == pyTitle mo)
        | some ml, _ => ml.isEmpty) := by
    intro r
    cases months with
    | none => rfl
    | some ml =>
        cases hcell : cellAt df "report_month" r with
        | str s =>
            rw [cellAt] at hcell
            simp only [monthEff, monthPass, hcell]
            rw [List.contains_eq_any_beq, List.any_map]
            rfl
        | num q =>
            rw [cellAt] at hcell
            simp [monthEff, monthPass, hcell]
        | null =>
            rw [cellAt] at hcell
            simp [monthEff, monthPass, hcell]
  have hY : ∀ r, yearEff df.cols years r
      = (match years, cellAt df "report_year" r with
        | none, _ => true
        | some yl, Cell.num q => yl.isEmpty || yl.any (fun yv => q == (yv : Rat))
        | some yl, _ => yl.isEmpty) := by
    intro r
    cases years with
    | none => rfl
    | some yl =>
        cases hcell : cellAt df "report_year" r with
        | str s =>
            rw [cellAt] at hcell
            simp [yearEff, yearPass, hcell]
        | num q =>
            rw [cellAt] at hcell
            simp [yearEff, yearPass, hcell]
        | null =>
            rw [cellAt] at hcell
            simp [yearEff, yearPass, hcell]
  refine ⟨?_, ?_, rfl⟩
  · rw [filter_data, yearStage_cols, monthStage_cols, vendorStage_cols]
  · rw [filter_data,
      yearStage_rows _ years (by rw [monthStage_cols, vendorStage_cols]; exact hy),
      monthStage_cols, vendorStage_cols,
      monthStage_rows _ months (by rw [vendorStage_cols]; exact hm),
      vendorStage_cols,
      vendorStage_rows df vendors hv,
      List.filter_filter, List.filter_filter]
    refine List.filter_congr ?_
    intro r _
    rw [← hV r, ← hM r, ← hY r]
    cases vendorEff df.cols vendors r <;> cases monthEff df.cols months r <;>
      cases yearEff df.cols years r <;> rfl

/-- C7 (witness): `filter_data_correct` applied to a concrete table
carrying all three columns, with a vendor and a year filter. -/
theorem filter_data_correct_witness :
    (colIdx ["vendor_name", "report_month", "report_year"] "vendor_name").isSome = true ∧
    ((filter_data ⟨["vendor_name", "report_month", "report_year"],
        [[Cell.str "Acme Clinic", Cell.str "January", Cell.num 2024],
         [Cell.str "Other", Cell.str "March", Cell.num 2023]]⟩
        (some ["  ACME clinic "]) none (some [2024])).rows
      = [[Cell.str "Acme Clinic", Cell.str "January", Cell.num 2024]]) := by
  constructor
  · decide
  · rw [(filter_data_correct ⟨["vendor_name", "report_month", "report_year"],
      [[Cell.str "Acme Clinic", Cell.str "January", Cell.num 2024],
       [Cell.str "Other", Cell.str "March", Cell.num 2023]]⟩
      (some ["  ACME clinic "]) none (some [2024]) (by decide) (by decide) (by decide)).2.1]
    decide

lemma isPySpace_cases (c : Char) (h : isPySpace c = true) :
    c = ' ' ∨ c = '\t' ∨ c = '\n' ∨ c = '\r' ∨ c = Char.ofNat 11 ∨ c = Char.ofNat 12 := by
  rw [isPySpace] at h
  simp only [Bool.or_eq_true, beq_iff_eq] at h
  tauto

lemma pyLowerChar_of_space (c : Char) (h : isPySpace c = true) : pyLowerChar c = c := by
  rcases isPySpace_cases c h with h1 | h1 | h1 | h1 | h1 | h1 <;> (subst h1; decide)

lemma isAsciiDigit_not_space (c : Char) (h : isAsciiDigit c = true) : isPySpace c = false := by
  cases hs : isPySpace c with
  | false => rfl
  | true =>
      exfalso
      rcases isPySpace_cases c hs with h1 | h1 | h1 | h1 | h1 | h1 <;>
        (subst h1; exact absurd h (by decide))

lemma not_space_of_pyLowerChar_eq_p (p : Char) (hp : pyLowerChar p = 'p') :
    isPySpace p = false := by
  cases hs : isPySpace p with
  | false => rfl
  | true =>
      exfalso
      rw [pyLowerChar_of_space p hs] at hp
      subst hp
      exact absurd hs (by decide)

/-- C6: `remove_page_rows` keeps the columns and removes exactly the
rows whose vendor_name matches the page-marker pattern
`^\s*page\s*\d+` (case-insensitive, anchored at the start): optional
leading whitespace, the literal "page" in any case, optional
whitespace, then at least one digit.  "Page 3" matches and is removed;
"Village Page Clinic" does not match and is kept. -/
theorem remove_page_rows_correct (df : DF) (j : Nat)
    (hv : colIdx df.cols "vendor_name" = some j) :
    (remove_page_rows df).cols = df.cols ∧
    (remove_page_rows df).rows
      = df.rows.filter (fun r => !pageRowCell (r.getD j Cell.null)) ∧
    (∀ s : String, pageRowMatch s = true ↔
      ∃ w1 pg w2 d rest, s.data = w1 ++ pg ++ w2 ++ d :: rest ∧
        (∀ c ∈ w1, isPySpace c = true) ∧ pg.map pyLowerChar = "page".data ∧
        (∀ c ∈ w2, isPySpace c = true) ∧ isAsciiDigit d = true) ∧
    pageRowMatch "Page 3" = true ∧ pageRowMatch "Village Page Clinic" = false := by
  have hchar : ∀ s : String, pageRowMatch s = true ↔
      ∃ w1 pg w2 d rest, s.data = w1 ++ pg ++ w2 ++ d :: rest ∧
        (∀ c ∈ w1, isPySpace c = true) ∧ pg.map pyLowerChar = "page".data ∧
        (∀ c ∈ w2, isPySpace c = true) ∧ isAsciiDigit d = true := by
    intro s
    constructor
    · intro h
      rw [pageRowMatch] at h
      cases hd : s.data.dropWhile isPySpace with
      | nil => rw [hd] at h; exact absurd h (by simp)
      | cons p t1 =>
        cases t1 with
        | nil => rw [hd] at h; exact absurd h (by simp)
        | cons a t2 =>
          cases t2 with
          | nil => rw [hd] at h; exact absurd h (by simp)
          | cons g t3 =>
            cases t3 with
            | nil => rw [hd] at h; exact absurd h (by simp)
            | cons e t4 =>
              rw [hd] at h
              have h1 : (if (pyLowerChar p == 'p' && pyLowerChar a == 'a'
                  && pyLowerChar g == 'g' && pyLowerChar e == 'e') = true then
                    (match t4.dropWhile isPySpace with
                      | d :: _ => isAsciiDigit d
                      | [] => false)
                  else false) = true := h
              by_cases hcond : (pyLowerChar p == 'p' && pyLowerChar a == 'a'
                  && pyLowerChar g == 'g' && pyLowerChar e == 'e') = true
              · rw [if_pos hcond] at h1
                simp only [Bool.and_eq_true, beq_iff_eq] at hcond
                obtain ⟨⟨⟨hp, ha⟩, hg⟩, he⟩ := hcond
                cases hd2 : t4.dropWhile isPySpace with
                | nil => rw [hd2] at h1; exact absurd h1 (by simp)
                | cons d r2 =>
                  rw [hd2] at h1
                  have h : isAsciiDigit d = true := h1
                  refine ⟨s.data.takeWhile isPySpace, [p, a, g, e],
                    t4.takeWhile isPySpace, d, r2, ?_, ?_, ?_, ?_, h⟩
                  · conv_lhs => rw [← List.takeWhile_append_dropWhile isPySpace s.data]
                    rw [hd]
                    have ht4 : t4 = t4.takeWhile isPySpace ++ (d :: r2) := by
                      conv_lhs => rw [← List.takeWhile_append_dropWhile isPySpace t4]
                      rw [hd2]
                    conv_lhs => rw [ht4]
                    simp
                  · intro c hc; exact List.mem_takeWhile_imp hc
                  · rw [List.map_cons, List.map_cons, List.map_cons, List.map_cons,
                      hp, ha, hg, he]
                    rfl
                  · intro c hc; exact List.mem_takeWhile_imp hc
              · rw [if_neg hcond] at h1
                exact absurd h1 (by simp)
    · rintro ⟨w1, pg, w2, d, rest, hsd, hw1, hmap, hw2, hd⟩
      have hlen : pg.length = 4 := by
        have := congrArg List.length hmap
        simpa using this
      obtain ⟨p, a, g, e, hpg⟩ : ∃ p a g e, pg = [p, a, g, e] := by
        cases pg with
        | nil => simp at hlen
        | cons p t1 =>
          cases t1 with
          | nil => simp at hlen
          | cons a t2 =>
            cases t2 with
            | nil => simp at hlen
            | cons g t3 =>
              cases t3 with
              | nil => simp at hlen
              | cons e t4 =>
                cases t4 with
                | nil => exact ⟨p, a, g, e, rfl⟩
                | cons x t5 => simp at hlen
      subst hpg
      simp only [List.map_cons, List.map_nil] at hmap
      have hp : pyLowerChar p = 'p' := by
        have := congrArg (fun l => l.headD ' ') hmap
        simpa using this
      have ha : pyLowerChar a = 'a' := by
        have := congrArg (fun l => (l.drop 1).headD ' ') hmap
        simpa using this
      have hg : pyLowerChar g = 'g' := by
        have := congrArg (fun l => (l.drop 2).headD ' ') hmap
        simpa using this
      have he : pyLowerChar e = 'e' := by
        have := congrArg (fun l => (l.drop 3).headD ' ') hmap
        simpa using this
      rw [pageRowMatch, hsd]
      have hdrop1 : (w1 ++ [p, a, g, e] ++ w2 ++ d :: rest).dropWhile isPySpace
          = [p, a, g, e] ++ w2 ++ d :: rest := by
        rw [List.append_assoc, List.append_assoc,
          List.dropWhile_append_of_pos (by intro x hx; exact hw1 x hx)]
        rw [show ([p, a, g, e] ++ (w2 ++ d :: rest))
            = p :: ([a, g, e] ++ (w2 ++ d :: rest)) by rfl]
        rw [List.dropWhile_cons_of_neg (by rw [not_space_of_pyLowerChar_eq_p p hp]; simp)]
        simp
      rw [hdrop1]
      simp only [List.cons_append, List.nil_append]
      rw [if_pos (by rw [hp, ha, hg, he]; rfl)]
      have hdrop2 : (w2 ++ d :: rest).dropWhile isPySpace = d :: rest := by
        rw [List.dropWhile_append_of_pos (by intro x hx; exact hw2 x hx),
          List.dropWhile_cons_of_neg (by rw [isAsciiDigit_not_space d hd]; simp)]
      rw [hdrop2]
      exact hd
  have hcols_ne : df.cols.isEmpty = false := by
    cases hcc : df.cols with
    | nil => rw [hcc] at hv; exact absurd hv (by simp [colIdx])
    | cons a b => rfl
  refine ⟨?_, ?_, hchar, by decide, by decide⟩
  · cases hre : df.rows.isEmpty with
    | true =>
        rw [remove_page_rows, if_pos (by rw [hv, hre]; simp)]
    | false =>
        rw [remove_page_rows, if_neg (by rw [hv, hre, hcols_ne]; simp), hv]
  · cases hre : df.rows.isEmpty with
    | true =>
        rw [remove_page_rows, if_pos (by rw [hv, hre]; simp),
          List.isEmpty_iff.mp hre, List.filter_nil]
    | false =>
        rw [remove_page_rows, if_neg (by rw [hv, hre, hcols_ne]; simp), hv]

/-- C6 (witness): `remove_page_rows_correct` at a concrete two-row
table: the "Page 3" row is removed, the "Village Page Clinic" row kept. -/
theorem remove_page_rows_correct_witness :
    colIdx ["vendor_name"] "vendor_name" = some 0 ∧
    (remove_page_rows ⟨["vendor_name"],
        [[Cell.str "Page 3"], [Cell.str "Village Page Clinic"]]⟩).rows
      = [[Cell.str "Village Page Clinic"]] := by
  constructor
  · decide
  · rw [(remove_page_rows_correct ⟨["vendor_name"],
      [[Cell.str "Page 3"], [Cell.str "Village Page Clinic"]]⟩ 0 (by decide)).2.1]
    decide

/-- C9 (counterexample): a registry whose canonical keys are NOT
pairwise distinct ("zzz" twice), with an input row "Acme" that is
resolved by its unique key "acme": every row is resolved, so the
fuzzy block (and its crashing `to_dict("index")`) is skipped, and the
enrichment returns exactly one output row per input row even though
the keys are duplicated — refuting the claimed "only if" direction of
the one-row-per-input-row equivalence.  (With an unresolved row
instead, the same duplicate-key registry makes the program raise
`ValueError` rather than produce any output, so the "once per
duplicate" clause also fails there: last conjunct.) -/
theorem enrich_duplicate_key_counterexample :
    enrich_with_registry [⟨"Acme"⟩]
        [⟨"acme", ⟨some "F1", none, none, none, none, none, none⟩⟩,
         ⟨"zzz", ⟨some "F2", none, none, none, none, none, none⟩⟩,
         ⟨"zzz", ⟨some "F3", none, none, none, none, none, none⟩⟩] true 92
      = some (Sum.inr
          [⟨"Acme", ⟨some "F1", none, none, none, none, none, none⟩, none⟩]) ∧
    ([⟨"Acme", ⟨some "F1", none, none, none, none, none, none⟩, none⟩]
        : List EnrichedRow).length
      = ([(⟨"Acme"⟩ : DisbRow)]).length ∧
    ¬ List.Pairwise (fun g1 g2 : RegRow =>
        g1.facility_name_clean ≠ g2.facility_name_clean)
      [⟨"acme", ⟨some "F1", none, none, none, none, none, none⟩⟩,
       ⟨"zzz", ⟨some "F2", none, none, none, none, none, none⟩⟩,
       ⟨"zzz", ⟨some "F3", none, none, none, none, none, none⟩⟩] ∧
    enrich_with_registry [⟨"Xyz"⟩]
        [⟨"acme", ⟨some "F1", none, none, none, none, none, none⟩⟩,
         ⟨"zzz", ⟨some "F2", none, none, none, none, none, none⟩⟩,
         ⟨"zzz", ⟨some "F3", none, none, none, none, none, none⟩⟩] true 92
      = none := by
  refine ⟨by decide, rfl, ?_, by decide⟩
  intro h
  rw [List.pairwise_cons] at h
  rw [List.pairwise_cons] at h
  exact h.2.1 _ (List.mem_cons_self _ _) rfl

lemma mergeOne_length (reg : List RegRow) (r : DisbRow) :
    (mergeOne reg r).length = max 1 (matchCount reg r) := by
  simp only [mergeOne, matchCount]
  cases hms : reg.filter (fun g =>
      g.facility_name_clean == _clean_name (some r.vendor_name)) with
  | nil => simp
  | cons x xs => simp

lemma exactPass_length (df : List DisbRow) (reg : List RegRow) :
    (exactPass df reg).length
      = (df.map (fun r => max 1 (matchCount reg r))).sum := by
  rw [exactPass, List.length_flatMap]
  congr 1
  exact List.map_congr_left (fun r _ => mergeOne_length reg r)

lemma length_le_sum_map_of_one_le {α : Type} (l : List α) (f : α → Nat)
    (h : ∀ a ∈ l, 1 ≤ f a) : l.length ≤ (l.map f).sum := by
  induction l with
  | nil => simp
  | cons x xs ih =>
      simp only [List.length_cons, List.map_cons, List.sum_cons]
      have h1 := ih (fun a ha => h a (List.mem_cons_of_mem x ha))
      have h2 := h x (List.mem_cons_self x xs)
      omega

lemma sum_map_one {α : Type} (l : List α) :
    (l.map (fun _ => (1 : Nat))).sum = l.length := by
  induction l with
  | nil => rfl
  | cons x xs ih =>
      simp only [List.map_cons, List.sum_cons, ih, List.length_cons]
      omega

lemma filter_key_length_le_one (k : String) :
    ∀ reg : List RegRow,
      List.Pairwise (fun g1 g2 : RegRow =>
        g1.facility_name_clean ≠ g2.facility_name_clean) reg →
      (reg.filter (fun g => g.facility_name_clean == k)).length ≤ 1
  | [], _ => by simp
  | g :: gs, h => by
      rw [List.pairwise_cons] at h
      obtain ⟨hg, hgs⟩ := h
      by_cases hk : (g.facility_name_clean == k) = true
      · rw [List.filter_cons, if_pos hk]
        have hnil : gs.filter (fun g2 => g2.facility_name_clean == k) = [] := by
          rw [List.filter_eq_nil_iff]
          intro g2 hg2
          simp only [beq_iff_eq]
          intro hk2
          rw [beq_iff_eq] at hk
          exact hg g2 hg2 (hk.trans hk2.symm)
        rw [hnil]
        simp
      · rw [List.filter_cons, if_neg hk]
        exact filter_key_length_le_one k gs hgs

/-- C9 (amended): whenever the enrichment returns an enriched table
(it does not raise, and both guards pass so the exact/fuzzy path
runs), the output has one row per input row per matching registry
entity: its length is the sum over input rows of `max 1 (matchCount)`.
Hence no input row is ever removed (output length at least input
length), and IF the registry's canonical keys are pairwise distinct
THEN the output has exactly one row per input row.  The converse
direction of the original claim is false (see the counterexample:
duplicated keys whose rows are all resolved still give one row per
input row, while duplicated keys with an unresolved row make the
program raise `ValueError` in `to_dict("index")` instead of producing
any output). -/
theorem enrich_row_multiplicity (df : List DisbRow) (reg : List RegRow)
    (fuzzy : Bool) (cutoff : Rat) (out : List EnrichedRow)
    (hout : enrich_with_registry df reg fuzzy cutoff = some (Sum.inr out)) :
    out.length = (df.map (fun r => max 1 (matchCount reg r))).sum ∧
    df.length ≤ out.length ∧
    (List.Pairwise (fun g1 g2 : RegRow =>
        g1.facility_name_clean ≠ g2.facility_name_clean) reg →
      out.length = df.length) := by
  have hlen : out.length = (exactPass df reg).length := by
    simp only [enrich_with_registry] at hout
    by_cases hg : (df.isEmpty || reg.isEmpty) = true
    · rw [if_pos hg] at hout
      exact absurd hout (by simp)
    · rw [if_neg hg] at hout
      by_cases hf : (!fuzzy || !HAVE_RAPIDFUZZ) = true
      · rw [if_pos hf] at hout
        injection hout with h
        injection h with h2
        rw [← h2, List.length_map]
      · rw [if_neg hf] at hout
        by_cases hu : ((exactPass df reg).any
            (fun er => !er.attrs.facility_id.isSome)) = true
        · rw [if_pos hu] at hout
          by_cases hdup : hasDupKeys reg = true
          · rw [if_pos hdup] at hout
            exact absurd hout (by simp)
          · rw [if_neg hdup] at hout
            injection hout with h
            injection h with h2
            rw [← h2, List.length_map]
        · rw [if_neg hu] at hout
          injection hout with h
          injection h with h2
          rw [← h2, List.length_map]
  refine ⟨?_, ?_, ?_⟩
  · rw [hlen, exactPass_length]
  · rw [hlen, exactPass_length]
    exact length_le_sum_map_of_one_le df _ (fun r _ => le_max_left 1 _)
  · intro hdist
    rw [hlen, exactPass_length]
    have hone : ∀ r ∈ df, max 1 (matchCount reg r) = 1 := by
      intro r _
      have := filter_key_length_le_one (_clean_name (some r.vendor_name)) reg hdist
      rw [matchCount]
      omega
    rw [List.map_congr_left hone, sum_map_one]

/-- C9 (witness): `enrich_row_multiplicity` applied at a one-row
dataset and a one-entry registry with no matching key: the single
input row survives unresolved, and with pairwise-distinct keys the
output length equals the input length. -/
theorem enrich_row_multiplicity_witness :
    ([⟨"Xyz", noAttrs, some 0⟩] : List EnrichedRow).length
        = ([(⟨"Xyz"⟩ : DisbRow)].map (fun r => max 1 (matchCount
            [⟨"acme clinic", ⟨some "F1", none, none, none, none, none, none⟩⟩] r))).sum ∧
      ([(⟨"Xyz"⟩ : DisbRow)]).length
        ≤ ([⟨"Xyz", noAttrs, some 0⟩] : List EnrichedRow).length ∧
      (List.Pairwise (fun g1 g2 : RegRow =>
          g1.facility_name_clean ≠ g2.facility_name_clean)
          [⟨"acme clinic", ⟨some "F1", none, none, none, none, none, none⟩⟩] →
        ([⟨"Xyz", noAttrs, some 0⟩] : List EnrichedRow).length
          = ([(⟨"Xyz"⟩ : DisbRow)]).length) :=
  enrich_row_multiplicity [⟨"Xyz"⟩]
    [⟨"acme clinic", ⟨some "F1", none, none, none, none, none, none⟩⟩]
    true 92 [⟨"Xyz", noAttrs, some 0⟩] (by decide)

lemma extractOne_foldl_spec (q : String) (cutoff : Rat) (choices : List String) :
    ∀ (acc : Option (String × Rat)) (k : String) (sc : Rat),
      List.foldl (fun acc c =>
        let sc := tokenSortScore q c
        if cutoff ≤ sc then
          match acc with
          | none => some (c, sc)
          | some (c0, sc0) => if sc0 < sc then some (c, sc) else some (c0, sc0)
        else acc) acc choices = some (k, sc) →
      acc = some (k, sc) ∨ (k ∈ choices ∧ sc = tokenSortScore q k ∧ cutoff ≤ sc) := by
  induction choices with
  | nil => intro acc k sc h; exact Or.inl h
  | cons c cs ih =>
      intro acc k sc h
      rw [List.foldl_cons] at h
      rcases ih _ k sc h with hacc | hmem
      · by_cases hc : cutoff ≤ tokenSortScore q c
        · cases acc with
          | none =>
              simp only [hc, if_true, Option.some.injEq, Prod.mk.injEq] at hacc
              obtain ⟨h1, h2⟩ := hacc
              subst h1
              exact Or.inr ⟨List.mem_cons_self c cs, h2.symm, h2 ▸ hc⟩
          | some p =>
              obtain ⟨c0, sc0⟩ := p
              by_cases hlt : sc0 < tokenSortScore q c
              · simp only [hc, if_true, hlt, Option.some.injEq, Prod.mk.injEq] at hacc
                obtain ⟨h1, h2⟩ := hacc
                subst h1
                exact Or.inr ⟨List.mem_cons_self c cs, h2.symm, h2 ▸ hc⟩
              · simp only [hc, if_true, hlt, if_false, Option.some.injEq,
                  Prod.mk.injEq] at hacc
                obtain ⟨h1, h2⟩ := hacc
                exact Or.inl (by rw [h1, h2])
        · simp only [hc, if_false] at hacc
          exact Or.inl hacc
      · exact Or.inr ⟨List.mem_cons_of_mem c hmem.1, hmem.2⟩

lemma extractOne_spec (q : String) (choices : List String) (cutoff : Rat)
    (k : String) (sc : Rat) (h : extractOne q choices cutoff = some (k, sc)) :
    k ∈ choices ∧ sc = tokenSortScore q k ∧ cutoff ≤ sc := by
  rw [extractOne] at h
  rcases extractOne_foldl_spec q cutoff choices none k sc h with h0 | hgood
  · exact absurd h0 (by simp)
  · exact hgood

lemma best_match_none (choices : List String) (cutoff : Rat) (q : String) (sc : Rat)
    (h : best_match choices cutoff q = (none, sc)) : sc = 0 := by
  rw [best_match] at h
  by_cases hq : q.isEmpty = true
  · rw [if_pos hq] at h
    injection h with h1 h2
    exact h2.symm
  · rw [if_neg hq] at h
    cases he : extractOne q choices cutoff with
    | none =>
        rw [he] at h
        injection h with h1 h2
        exact h2.symm
    | some p =>
        obtain ⟨k0, s0⟩ := p
        rw [he] at h
        injection h with h1 h2
        exact absurd h1 (by simp)

lemma best_match_some (choices : List String) (cutoff : Rat) (q : String)
    (k : String) (sc : Rat) (h : best_match choices cutoff q = (some k, sc)) :
    extractOne q choices cutoff = some (k, sc) := by
  rw [best_match] at h
  by_cases hq : q.isEmpty = true
  · rw [if_pos hq] at h
    injection h with h1 h2
    exact absurd h1 (by simp)
  · rw [if_neg hq] at h
    cases he : extractOne q choices cutoff with
    | none =>
        rw [he] at h
        injection h with h1 h2
        exact absurd h1 (by simp)
    | some p =>
        obtain ⟨k0, s0⟩ := p
        rw [he] at h
        injection h with h1 h2
        injection h1 with h1a
        rw [h1a, h2]

lemma foldl_max_init_le (l : List Rat) : ∀ a : Rat, a ≤ l.foldl max a := by
  induction l with
  | nil => intro a; exact le_refl a
  | cons x xs ih =>
      intro a
      rw [List.foldl_cons]
      exact le_trans (le_max_left a x) (ih (max a x))

lemma le_foldl_max : ∀ (l : List Rat) (x : Rat), x ∈ l → ∀ a : Rat, x ≤ l.foldl max a
  | [], x, hx, _ => absurd hx (List.not_mem_nil x)
  | y :: ys, x, hx, a => by
      rw [List.foldl_cons]
      rcases List.mem_cons.mp hx with h | h
      · subst h
        exact le_trans (le_max_right a x) (foldl_max_init_le ys (max a x))
      · exact le_foldl_max ys x h (max a y)

lemma tokenSortScore_le_bestScore (reg : List RegRow) (q : String) (k : String)
    (hk : k ∈ reg.map (fun g => g.facility_name_clean)) :
    tokenSortScore q k ≤ bestScore reg q := by
  rw [bestScore]
  apply le_foldl_max
  rw [List.mem_map] at hk
  obtain ⟨g, hg, hgk⟩ := hk
  rw [List.mem_map]
  exact ⟨g, hg, by rw [hgk]⟩

/-- C1: whenever the fuzzy pass produces an output (it raises on a
duplicate-key registry with an unresolved row, modelled as the `none`
outcome), a row left unresolved by the exact pass (all registry
attributes null) either gets a fuzzy match whose token-sort similarity
score meets or exceeds the cutoff — in particular the best score over
the registry is at least the cutoff — or, when its best score is below
the cutoff, stays unresolved with all registry attribute fields null
(and a recorded score of 0). -/
theorem fuzzy_cutoff_correct (df : List DisbRow) (reg : List RegRow)
    (cutoff : Rat) (out : List EnrichedRow) (i : Nat) (er : ExactRow)
    (hout : enrich_with_registry df reg true cutoff = some (Sum.inr out))
    (hi : (exactPass df reg)[i]? = some er)
    (hun : er.attrs = noAttrs) :
    ∃ row : EnrichedRow, out[i]? = some row ∧
      row.vendor_name = er.vendor_name ∧
      (row.attrs ≠ noAttrs →
        ∃ sc, row.match_score = some sc ∧ cutoff ≤ sc ∧
          cutoff ≤ bestScore reg er.vendor_clean) ∧
      (bestScore reg er.vendor_clean < cutoff →
        row.attrs = noAttrs ∧ row.match_score = some 0) := by
  have hany : (exactPass df reg).any (fun er => !er.attrs.facility_id.isSome)
      = true :=
    List.any_eq_true.mpr ⟨er, List.getElem?_mem hi, by rw [hun]; rfl⟩
  have hmap : out = (exactPass df reg).map (fuzzyStep reg cutoff) := by
    simp only [enrich_with_registry] at hout
    by_cases hg : (df.isEmpty || reg.isEmpty) = true
    · rw [if_pos hg] at hout
      exact absurd hout (by simp)
    · rw [if_neg hg, if_neg (by decide), if_pos hany] at hout
      by_cases hdup : hasDupKeys reg = true
      · rw [if_pos hdup] at hout
        exact absurd hout (by simp)
      · rw [if_neg hdup] at hout
        injection hout with h
        injection h with h2
        exact h2.symm
  have hrow : out[i]? = some (fuzzyStep reg cutoff er) := by
    rw [hmap, List.getElem?_map, hi]
    rfl
  cases hbm : best_match (reg.map (fun g => g.facility_name_clean)) cutoff
      er.vendor_clean with
  | mk ok sc =>
      cases ok with
      | none =>
          have hfs : fuzzyStep reg cutoff er = ⟨er.vendor_name, er.attrs, some sc⟩ := by
            rw [fuzzyStep, hun, hbm]
            exact rfl
          have hsc0 : sc = 0 := best_match_none _ _ _ _ hbm
          refine ⟨fuzzyStep reg cutoff er, hrow, ?_, ?_, ?_⟩
          · rw [hfs]
          · rw [hfs, hun]
            intro hne
            exact absurd rfl hne
          · rw [hfs, hun, hsc0]
            intro _
            exact ⟨rfl, rfl⟩
      | some k =>
          have hfs : fuzzyStep reg cutoff er = ⟨er.vendor_name, regTake reg k, some sc⟩ := by
            rw [fuzzyStep, hun, hbm]
            exact rfl
          have hspec := extractOne_spec er.vendor_clean
            (reg.map (fun g => g.facility_name_clean)) cutoff k sc
            (best_match_some _ _ _ _ _ hbm)
          have hle : cutoff ≤ bestScore reg er.vendor_clean :=
            le_trans hspec.2.2
              (hspec.2.1 ▸ tokenSortScore_le_bestScore reg er.vendor_clean k hspec.1)
          refine ⟨fuzzyStep reg cutoff er, hrow, ?_, ?_, ?_⟩
          · rw [hfs]
          · rw [hfs]
            intro _
            exact ⟨sc, rfl, hspec.2.2, hle⟩
          · intro hlt
            exact absurd (lt_of_le_of_lt hle hlt) (lt_irrefl cutoff)

/-- C1 (witness): `fuzzy_cutoff_correct` at the "Acme Klinik" row
against a one-entry registry keyed "acme clinic" with the default
cutoff 92: the row's best score is below the cutoff, so it remains
unresolved with all registry attribute fields null and score 0. -/
theorem fuzzy_cutoff_correct_witness :
    ∃ row : EnrichedRow,
      ([⟨"Acme Klinik", noAttrs, some 0⟩] : List EnrichedRow)[0]? = some row ∧
      row.vendor_name
        = (⟨"Acme Klinik", "acme klinik", noAttrs⟩ : ExactRow).vendor_name ∧
      (row.attrs ≠ noAttrs →
        ∃ sc, row.match_score = some sc ∧ (92 : Rat) ≤ sc ∧
          (92 : Rat) ≤ bestScore
            [⟨"acme clinic", ⟨some "F1", none, none, none, none, none, none⟩⟩]
            (⟨"Acme Klinik", "acme klinik", noAttrs⟩ : ExactRow).vendor_clean) ∧
      (bestScore
          [⟨"acme clinic", ⟨some "F1", none, none, none, none, none, none⟩⟩]
          (⟨"Acme Klinik", "acme klinik", noAttrs⟩ : ExactRow).vendor_clean
            < (92 : Rat) →
        row.attrs = noAttrs ∧ row.match_score = some 0) :=
  fuzzy_cutoff_correct [⟨"Acme Klinik"⟩]
    [⟨"acme clinic", ⟨some "F1", none, none, none, none, none, none⟩⟩]
    92 [⟨"Acme Klinik", noAttrs, some 0⟩] 0
    ⟨"Acme Klinik", "acme klinik", noAttrs⟩
    (by decide) (by decide) rfl
